import Mathlib

/-!
Verification of the local data ordering and transformation pipeline of the
slickgrid-universal repository: the flat/hierarchical tree conversion
utilities, the tree-items roll-up, the multi-column sort comparison engine
and the sort-service configuration guard
(`packages/common/src/services/utilities.ts` and
`packages/common/src/services/sort.service.ts`).

The embedding models JavaScript values as the inductive type `JVal`
(undefined, null, booleans, integers, strings, arrays and plain objects).
Objects and data rows are string-keyed association lists in property
insertion order; reading an absent property yields `JVal.undefined`, exactly as
a JavaScript property read does.  Restrictions of the embedding (each noted
where it matters): numbers are integers (no NaN/float claims are involved),
prototype-chain effects of plain `{}` dictionaries are not modelled, exotic
index properties of strings/arrays are not modelled, and JavaScript `===`
on two distinct object/array literals is modelled as `false` (fresh
references are never identical; the conversion utilities deep-copy their
inputs with `$.extend(true, ...)` before building, so shared references do
not arise).
-/

namespace Slick

/-- JavaScript values as used by the grid utilities. -/
inductive JVal where
  | undefined : JVal
  | null : JVal
  | bool : Bool → JVal
  | num : Int → JVal
  | str : String → JVal
  | arr : List JVal → JVal
  | obj : List (String × JVal) → JVal

instance : Inhabited JVal := ⟨.undefined⟩

/-- A data row: a JavaScript object, i.e. an association list of own
enumerable properties in insertion order. -/
abbrev Row := List (String × JVal)

/-- Own-property lookup: `Object.hasOwnProperty` + the stored value. -/
def lookupField : Row → String → Option JVal
  | [], _ => none
  | (k', v) :: rest, k => if k' = k then some v else lookupField rest k

/-- JavaScript property read `r[k]`: absent properties read as `undefined`. -/
def getFieldJ (r : Row) (k : String) : JVal :=
  (lookupField r k).getD .undefined

/-- `r.hasOwnProperty(k)`. -/
def hasOwn (r : Row) (k : String) : Bool :=
  (lookupField r k).isSome

/-- JavaScript property write `r[k] = v`: overwrites in place when the key
exists (keeping its position), otherwise appends the new property. -/
def setField : Row → String → JVal → Row
  | [], k, v => [(k, v)]
  | (k', v') :: rest, k, v =>
    if k' = k then (k, v) :: rest else (k', v') :: setField rest k v

/-- JavaScript `delete r[k]`. -/
def eraseKey : Row → String → Row
  | [], _ => []
  | (k', v') :: rest, k => if k' = k then rest else (k', v') :: eraseKey rest k

/-- JavaScript truthiness of a value. -/
def jsTruthy : JVal → Bool
  | .undefined => false
  | .null => false
  | .bool b => b
  | .num n => n ≠ 0
  | .str s => s ≠ ""
  | .arr _ => true
  | .obj _ => true

mutual
/-- JavaScript `String(v)` (also the property key a value turns into).
Arrays stringify by `join(",")` where null/undefined elements become the
empty string; plain objects stringify to `"[object Object]"`. -/
def toKeyString : JVal → String
  | .undefined => "undefined"
  | .null => "null"
  | .bool b => if b then "true" else "false"
  | .num n => toString n
  | .str s => s
  | .arr vs => joinKeyStrings vs
  | .obj _ => "[object Object]"

/-- `Array.prototype.join(",")` over stringified elements. -/
def joinKeyStrings : List JVal → String
  | [] => ""
  | [v] => elemKeyString v
  | v :: rest => elemKeyString v ++ "," ++ joinKeyStrings rest
  termination_by structural l => l

/-- An array element inside `join`: null/undefined render as empty. -/
def elemKeyString : JVal → String
  | .undefined => ""
  | .null => ""
  | .bool b => if b then "true" else "false"
  | .num n => toString n
  | .str s => s
  | .arr vs => joinKeyStrings vs
  | .obj _ => "[object Object]"
  termination_by structural v => v
end

/-- JavaScript strict equality `===`.  Two object or array values compare
by reference; distinct freshly-copied references are never equal, which is
the situation in all conversion passes (inputs are deep-copied first), so
the embedding returns `false` on any object/array comparand. -/
def strictEq : JVal → JVal → Bool
  | .undefined, .undefined => true
  | .null, .null => true
  | .bool a, .bool b => a == b
  | .num a, .num b => a == b
  | .str a, .str b => a == b
  | _, _ => false

/-! ## `dedupePrimitiveArray` (utilities.ts lines 133-146)

The source keeps a `seen` dictionary keyed by `seen[item]`, i.e. by the
*string form* of each element (a plain-object key), pushing an element to
the output only when its key has not been marked.  The `{}` dictionary is
modelled as a bare string set (prototype-chain lookups are outside the
embedding). -/

/-- One pass of the `for` loop of `dedupePrimitiveArray`, carrying the set
of string keys already marked in `seen`. -/
def dedupeAux : List JVal → List String → List JVal
  | [], _ => []
  | x :: xs, seen =>
    if toKeyString x ∈ seen then dedupeAux xs seen
    else x :: dedupeAux xs (toKeyString x :: seen)

/-- `dedupePrimitiveArray(inputArray)`. -/
def dedupePrimitiveArray (inputArray : List JVal) : List JVal :=
  dedupeAux inputArray []

/-! ## `parseBoolean` (utilities.ts lines 705-708)

`parseBoolean(input)` is `/(true|1)/i.test(input + '')`: the regex engine
scans the string form of the input for an occurrence of `true` (any case)
or of the character `1` at *any* position — the pattern is unanchored.
`matchesTruePrefix` is the regex alternative `true` tried at one position,
`regexTestTrueOr1` is the engine's scan over all start positions. -/

/-- Case-insensitive match of the literal alternative `true` at the start
of the remaining characters. -/
def truePatternAt : List Char → Bool
  | c1 :: c2 :: c3 :: c4 :: _ =>
    c1.toLower = 't' && c2.toLower = 'r' && c3.toLower = 'u' && c4.toLower = 'e'
  | _ => false

/-- The regex scan of `/(true|1)/i`: try both alternatives at each start
position of the subject. -/
def regexTestTrueOr1 : List Char → Bool
  | [] => false
  | c :: rest => truePatternAt (c :: rest) || c = '1' || regexTestTrueOr1 rest

/-- `parseBoolean(input)` — `input + ''` coerces the argument to a string,
then the unanchored regex is applied. -/
def parseBoolean (input : JVal) : Bool :=
  regexTestTrueOr1 (toKeyString input).toList

/-! ## `convertParentChildFlatArrayToHierarchicalView` (utilities.ts lines 45-79)

The source deep-copies the flat input, indexes the copies in a plain
object `all` keyed by `String(item[identifierPropName])` (later rows
overwrite earlier ones holding the same key), then walks the entries of
`all`: an entry whose parent property is strictly `null` or absent is
pushed to `roots`; otherwise, when the parent key is present in `all`, the
entry is pushed onto that parent's `children` array; otherwise nothing
happens (the row is attached nowhere).  Each visited entry also has its
`__treeLevel`/`__hasChildren` bookkeeping properties deleted.

The resulting object graph is represented by three functions on keys: the
final entry list `hierAll`, the root keys `hierRoots` and the child-key
lists `hierChildKeys`; `materializeKey` rebuilds the nested-children rows
from that graph (with fuel bounding the depth, sufficient for every
acyclic graph), and the exported function maps it over the roots.

Divergence noted: the iteration order of `Object.keys` puts integer-like
keys in ascending numeric order; the model iterates in insertion order.
The two agree whenever ids appear in ascending order (as in every claim
checked below), and no claim below depends on the order of siblings. -/

/-- Options of the flat→hierarchical conversion, all optional. -/
structure ConvOptions where
  parentPropName : Option String := none
  childrenPropName : Option String := none
  identifierPropName : Option String := none

/-- `options?.x || 'default'` — JavaScript `||` also skips an empty
string. -/
def resolveProp (given : Option String) (dflt : String) : String :=
  match given with
  | some s => if s = "" then dflt else s
  | none => dflt

/-- String key a row is indexed under: `String(item[identifierPropName])`. -/
def idKeyOf (idProp : String) (r : Row) : String :=
  toKeyString (getFieldJ r idProp)

/-- String key of a row's declared parent: `String(item[parentPropName])`
(the key used by `item[parentPropName] in all`). -/
def parentKeyOf (parentProp : String) (r : Row) : String :=
  toKeyString (getFieldJ r parentProp)

/-- The root test of the conversion loop:
`item[parentPropName] === null || !item.hasOwnProperty(parentPropName)`. -/
def isRootRow (parentProp : String) (r : Row) : Bool :=
  match lookupField r parentProp with
  | none => true
  | some v => strictEq v .null

/-- Plain-object insertion `all[k] = v`: overwrite in place when the key
exists, append otherwise. -/
def objInsert (k : String) (v : α) : List (String × α) → List (String × α)
  | [] => [(k, v)]
  | (k', v') :: rest => if k' = k then (k, v) :: rest else (k', v') :: objInsert k v rest

/-- `inputArray.forEach((item) => all[item[identifierPropName]] = item)`. -/
def hierAll (idProp : String) (flatArray : List Row) : List (String × Row) :=
  flatArray.foldl (fun acc item => objInsert (idKeyOf idProp item) item acc) []

/-- The `roots.push` part of the conversion loop over the entries of
`all`, in iteration order. -/
def collectRoots (parentProp : String) : List (String × Row) → List String
  | [] => []
  | (k, r) :: rest =>
    if isRootRow parentProp r then k :: collectRoots parentProp rest
    else collectRoots parentProp rest

/-- The `p[childrenPropName].push(item)` part of the loop: keys pushed onto
the children array of the entry holding key `p`, in iteration order. -/
def collectChildren (parentProp : String) (p : String) : List (String × Row) → List String
  | [] => []
  | (k, r) :: rest =>
    if ¬ isRootRow parentProp r ∧ parentKeyOf parentProp r = p then
      k :: collectChildren parentProp p rest
    else collectChildren parentProp p rest

/-- Root keys of the converted hierarchy. -/
def hierRoots (opts : Option ConvOptions) (flatArray : List Row) : List String :=
  let parentProp := resolveProp (opts.bind (·.parentPropName)) "parentId"
  let idProp := resolveProp (opts.bind (·.identifierPropName)) "id"
  collectRoots parentProp (hierAll idProp flatArray)

/-- Child keys attached under the entry holding key `p` (the guard
`item[parentPropName] in all` makes attachment happen only when `p` is a
key of `all`). -/
def hierChildKeys (opts : Option ConvOptions) (flatArray : List Row) (p : String) : List String :=
  let parentProp := resolveProp (opts.bind (·.parentPropName)) "parentId"
  let idProp := resolveProp (opts.bind (·.identifierPropName)) "id"
  let allL := hierAll idProp flatArray
  if p ∈ allL.map (·.1) then collectChildren parentProp p allL else []

/-- `delete item['__treeLevel']; delete item['__hasChildren']` — the two
bookkeeping property names are hard-coded in this function. -/
def cleanRow (r : Row) : Row :=
  eraseKey (eraseKey r "__treeLevel") "__hasChildren"

/-- A hierarchical row: its scalar properties plus the optional
`children` array (`none` when the property is absent — the conversion only
creates a `children` array when a first child is pushed). -/
inductive HTree where
  | node : Row → Option (List HTree) → HTree

/-- Fields of a hierarchical row. -/
def HTree.fields : HTree → Row
  | .node r _ => r

/-- Children of a hierarchical row. -/
def HTree.children : HTree → Option (List HTree)
  | .node _ cs => cs

/-- Rebuild the nested rows from the converted object graph, starting at a
key; `fuel` bounds the depth and is chosen `≥` the entry count, which
covers every acyclic graph (a cyclic graph — which in the source yields a
cyclic object structure — is truncated instead). -/
def materializeKey (opts : Option ConvOptions) (flatArray : List Row) :
    Nat → String → HTree
  | 0, k =>
    let idProp := resolveProp (opts.bind (·.identifierPropName)) "id"
    .node (cleanRow (((hierAll idProp flatArray).lookup k).getD [])) none
  | fuel + 1, k =>
    let idProp := resolveProp (opts.bind (·.identifierPropName)) "id"
    let r := cleanRow (((hierAll idProp flatArray).lookup k).getD [])
    let cs := hierChildKeys opts flatArray k
    .node r (if cs.isEmpty then none
             else some (cs.map (materializeKey opts flatArray fuel)))

/-- `convertParentChildFlatArrayToHierarchicalView(flatArray, options)`:
the returned `roots` array, materialized. -/
def convertParentChildFlatArrayToHierarchicalView
    (flatArray : List Row) (opts : Option ConvOptions := none) : List HTree :=
  let idProp := resolveProp (opts.bind (·.identifierPropName)) "id"
  let fuel := (hierAll idProp flatArray).length
  (hierRoots opts flatArray).map (materializeKey opts flatArray fuel)

/-- Identifiers reachable in the converted hierarchy: the key of a root
entry, or the key of a child attached under a reachable entry.  This is
reachability in the object graph `convertParentChildFlatArrayToHierarchicalView`
builds (following `children` arrays from the returned `roots`). -/
inductive ReachableKey (opts : Option ConvOptions) (flatArray : List Row) : String → Prop where
  | root {k} : k ∈ hierRoots opts flatArray → ReachableKey opts flatArray k
  | child {p k} : ReachableKey opts flatArray p →
      k ∈ hierChildKeys opts flatArray p → ReachableKey opts flatArray k

/-! ## `convertHierarchicalViewToFlatArray` /
`convertHierarchicalViewToFlatArrayByOutputArrayReference`
(utilities.ts lines 87-127)

Depth-first pre-order pass over the (deep-copied) hierarchical rows with an
output array accumulated by reference.  For each non-null item: when no row
already in the output has a strictly-equal identifier, the item is stamped
with the tree-level and parent-id bookkeeping properties and pushed;
either way, when the item's children property holds an array, the pass
recurses into it at level+1, then marks the item `__hasChildren = true` and
deletes its children property.  Because the pushed row *is* the item (by
reference), the later `__hasChildren` mark lands on the pushed output row:
the model applies it at the recorded output position (`modifyAt`).  The
`children` property of an `HTree` is carried structurally, so the final
`delete` is implicit. -/

/-- Options of the hierarchical→flat conversion. -/
structure FlatOptions where
  childrenPropName : Option String := none
  parentIdPropName : Option String := none
  hasChildrenFlagPropName : Option String := none
  treeLevelPropName : Option String := none
  identifierPropName : Option String := none

/-- Update the element at one position of a list (no-op out of range) —
the model of mutating an output row already pushed by reference. -/
def modifyAt (f : α → α) : List α → Nat → List α
  | [], _ => []
  | x :: xs, 0 => f x :: xs
  | x :: xs, n + 1 => x :: modifyAt f xs n

/-- Stamping done right before `outputArray.push(item)`:
`item[treeLevelPropName] = treeLevel; item[parentIdPropName] = parentId || null`. -/
def stampRow (treeLevelProp parentIdProp : String) (treeLevel : Nat) (parentId : JVal)
    (r : Row) : Row :=
  setField (setField r treeLevelProp (.num treeLevel))
    parentIdProp (if jsTruthy parentId then parentId else .null)

mutual
/-- One iteration of the `for (const item of hierarchicalArray)` loop of
`convertHierarchicalViewToFlatArrayByOutputArrayReference`, with the
resolved property names, the current tree level and the current parent-id
value; `out` is the output array passed by reference. -/
def flattenOne (idProp treeLevelProp parentIdProp hasChildrenProp : String)
    (treeLevel : Nat) (parentId : JVal) : HTree → List Row → List Row
  | .node flds cs, out =>
    let idv := getFieldJ flds idProp
    let itemExist := out.any fun itm => strictEq (getFieldJ itm idProp) idv
    let out1 := if itemExist then out
                else out ++ [stampRow treeLevelProp parentIdProp treeLevel parentId flds]
    match cs with
    | none => out1
    | some children =>
      let o := flattenGo idProp treeLevelProp parentIdProp hasChildrenProp
                 (treeLevel + 1) (getFieldJ flds idProp) children out1
      if itemExist then o
      else modifyAt (fun itm => setField itm hasChildrenProp (.bool true)) o out.length
  termination_by structural t => t

/-- The recursive body of
`convertHierarchicalViewToFlatArrayByOutputArrayReference`: fold the loop
iteration over the sibling list, threading the by-reference output. -/
def flattenGo (idProp treeLevelProp parentIdProp hasChildrenProp : String) :
    Nat → JVal → List HTree → List Row → List Row
  | _, _, [], out => out
  | treeLevel, parentId, t :: rest, out =>
    flattenGo idProp treeLevelProp parentIdProp hasChildrenProp treeLevel parentId rest
      (flattenOne idProp treeLevelProp parentIdProp hasChildrenProp treeLevel parentId t out)
  termination_by structural treeLevel parentId l out => l
end

/-- `convertHierarchicalViewToFlatArrayByOutputArrayReference(hier, out,
options, treeLevel, parentId)` with the default `treeLevel = 0` and absent
`parentId` expressed at the call site. -/
def convertHierarchicalViewToFlatArrayByOutputArrayReference
    (hierarchicalArray : List HTree) (outputArray : List Row)
    (opts : Option FlatOptions := none) (treeLevel : Nat := 0)
    (parentId : JVal := .undefined) : List Row :=
  let idProp := resolveProp (opts.bind (·.identifierPropName)) "id"
  let treeLevelProp := resolveProp (opts.bind (·.treeLevelPropName)) "__treeLevel"
  let parentIdProp := resolveProp (opts.bind (·.parentIdPropName)) "__parentId"
  let hasChildrenProp := resolveProp (opts.bind (·.hasChildrenFlagPropName)) "__hasChildren"
  flattenGo idProp treeLevelProp parentIdProp hasChildrenProp
    treeLevel parentId hierarchicalArray outputArray

/-- `convertHierarchicalViewToFlatArray(hierarchicalArray, options)`:
fresh output array, level 0, no parent. -/
def convertHierarchicalViewToFlatArray
    (hierarchicalArray : List HTree) (opts : Option FlatOptions := none) : List Row :=
  convertHierarchicalViewToFlatArrayByOutputArrayReference hierarchicalArray [] opts 0 .undefined

/-! ## `getDescendantProperty` (utilities.ts lines 347-352)

The string helpers below mirror `indexOf('.') >= 0`, `split('.')` and
`toUpperCase()` by structural recursion over the character list (the
library's byte-position-based versions do not evaluate inside the
kernel). -/

/-- `s.indexOf(c) >= 0`. -/
def strContainsChar (s : String) (c : Char) : Bool :=
  s.toList.contains c

/-- `split('.')` on a character list, accumulating the current piece. -/
def splitDotAux : List Char → List Char → List String
  | [], acc => [String.mk acc.reverse]
  | c :: rest, acc =>
    if c = '.' then String.mk acc.reverse :: splitDotAux rest []
    else splitDotAux rest (c :: acc)

/-- `s.split('.')`. -/
def splitDot (s : String) : List String :=
  splitDotAux s.toList []

/-- `s.toUpperCase()`. -/
def strToUpper (s : String) : String :=
  String.mk (s.toList.map Char.toUpper)

/-- A property read on an arbitrary value: objects look the property up;
on primitives/arrays the read yields `undefined` (exotic index and length
properties of strings/arrays are outside the embedding). -/
def getPropJ : JVal → String → JVal
  | .obj fields, k => getFieldJ fields k
  | _, _ => .undefined

/-- `getDescendantProperty(obj, path)`: when `obj` and `path` are truthy,
`path.split('.').reduce((acc, part) => acc && acc[part], obj)`. -/
def getDescendantProperty (obj : JVal) (path : Option String) : JVal :=
  match path with
  | none => obj
  | some p =>
    if ¬ jsTruthy obj ∨ p = "" then obj
    else (splitDot p).foldl
      (fun acc part => if jsTruthy acc then getPropJ acc part else acc) obj

/-! ## The sort comparison engine (sort.service.ts lines 435-486)

Supporting enumerations.  `SortDirectionNumber` has `asc = 1`,
`desc = -1`, `neutral = 0`; directions are carried as plain `Int`.
`FieldType` is reduced to the representative members the sort path
distinguishes (the full enumeration only feeds the generic comparator's
classification). -/

/-- Representative field types (enums/fieldType.enum.ts). -/
inductive FieldType where
  | string
  | unknown
  | number
  | float
  | boolean
  | date
  | dateIso
  | dateUtc
  | dateTime
  | dateTimeIso
  | object

/-- The five general comparison categories of §4.1. -/
inductive GeneralCategory where
  | boolCat
  | dateCat
  | numberCat
  | objectCat
  | textCat

/-- Modelled from the spec: `classify(fieldType)` of §4.1 — the
`FieldTypeClassifier` (sortComparers/sortUtilities.ts is not among the
provided sources).  Every numeric subtype maps to number, every date
variant to date, boolean to boolean, object to object, and the
unrecognized/default case to text. -/
def classifyFieldType : FieldType → GeneralCategory
  | .number => .numberCat
  | .float => .numberCat
  | .boolean => .boolCat
  | .date => .dateCat
  | .dateIso => .dateCat
  | .dateUtc => .dateCat
  | .dateTime => .dateCat
  | .dateTimeIso => .dateCat
  | .object => .objectCat
  | .string => .textCat
  | .unknown => .textCat

/-- Three-way comparison of two strings. -/
def strCompare (a b : String) : Int :=
  if a < b then -1 else if b < a then 1 else 0

/-- Modelled from the spec: the generic value comparator of one category
(§4.4) — numeric compare for numbers, chronological compare for dates
(date values compare through their canonical string form here), string
compare for text, boolean compare, and no ordering for objects. -/
def genericCompare : GeneralCategory → JVal → JVal → Int
  | .numberCat, .num a, .num b => if a < b then -1 else if b < a then 1 else 0
  | .numberCat, a, b => strCompare (toKeyString a) (toKeyString b)
  | .dateCat, a, b => strCompare (toKeyString a) (toKeyString b)
  | .boolCat, a, b =>
    (if jsTruthy a then 1 else 0) - (if jsTruthy b then 1 else 0)
  | .objectCat, _, _ => 0
  | .textCat, a, b => strCompare (toKeyString a) (toKeyString b)

/-- Modelled from the spec: `sortByFieldType(fieldType, value1, value2,
sortDirection, ...)` of sortComparers/sortUtilities.ts (not among the
provided sources) — classify the field type, apply the category's generic
comparator, and invert the sign by the direction ("Direction
(ascending/descending) inverts the generic comparator's sign", §4.4); the
trailing column/grid-option arguments of the source are not modelled. -/
def sortByFieldType (fieldType : FieldType) (value1 value2 : JVal)
    (sortDirection : Int) : Int :=
  genericCompare (classifyFieldType fieldType) value1 value2 * sortDirection

/-- Tree-data options attached to a column
(`column.treeData`: `parentPropName`, `itemMapPropName`). -/
structure ColumnTreeData where
  parentPropName : Option String := none
  itemMapPropName : Option String := none

/-- A column definition, restricted to the properties the sort engine and
the tree roll-up read.  A custom `sortComparer` callback receives the two
resolved values and the direction; the trailing column-definition and
grid-option arguments the source also passes are not modelled (they would
make the type recursive in `Column`). -/
structure Column where
  id : String := ""
  field : String := ""
  queryField : Option String := none
  queryFieldSorter : Option String := none
  queryFieldNameGetterFn : Option (Row → String) := none
  type : Option FieldType := none
  sortComparer : Option (JVal → JVal → Int → Int) := none
  treeData : Option ColumnTreeData := none

/-- A sort directive handed to the comparison engine. -/
structure ColumnSort where
  columnId : String := ""
  sortAsc : Bool := true
  sortCol : Option Column := none

/-- The `a || b || ...` fallback chain over possibly-undefined strings
(an empty string is falsy and also falls through). -/
def firstTruthyStr (cands : List (Option String)) (last : String) : String :=
  match cands with
  | [] => last
  | some s :: rest => if s = "" then firstTruthyStr rest last else s
  | none :: rest => firstTruthyStr rest last

/-- The field-value resolution step of `sortComparer` (lines 451-470):
resolve the query field name (`querySortField || queryFieldSorter ||
queryField || field`, overridden per row by `queryFieldNameGetterFn` when
configured), read it off each row, and follow a dot-notation path through
`getDescendantProperty` when the name contains a dot. -/
def resolveSortValues (columnDef : Column) (querySortField : Option String)
    (dataRow1 dataRow2 : Row) : JVal × JVal :=
  let queryFieldName1 :=
    firstTruthyStr [querySortField, columnDef.queryFieldSorter, columnDef.queryField]
      columnDef.field
  let (queryFieldName1, queryFieldName2) :=
    match columnDef.queryFieldNameGetterFn with
    | some f => (f dataRow1, f dataRow2)
    | none => (queryFieldName1, queryFieldName1)
  let value1 :=
    if queryFieldName1 ≠ "" ∧ strContainsChar queryFieldName1 '.' then
      getDescendantProperty (.obj dataRow1) (some queryFieldName1)
    else getFieldJ dataRow1 queryFieldName1
  let value2 :=
    if queryFieldName2 ≠ "" ∧ strContainsChar queryFieldName2 '.' then
      getDescendantProperty (.obj dataRow2) (some queryFieldName2)
    else getFieldJ dataRow2 queryFieldName2
  (value1, value2)

/-- `sortComparer(sortColumn, dataRow1, dataRow2, querySortField)` (lines
447-486): `none` models the `undefined` return (a neutral outcome — no
`sortCol`, or a neutral comparator result); a custom comparator's
non-neutral result is returned as-is, a generic non-neutral result is
returned as-is (the direction inversion already happened inside
`sortByFieldType`). -/
def sortComparer (sortColumn : ColumnSort) (dataRow1 dataRow2 : Row)
    (querySortField : Option String := none) : Option Int :=
  match sortColumn.sortCol with
  | none => none
  | some columnDef =>
    let sortDirection : Int := if sortColumn.sortAsc then 1 else -1
    let fieldType := columnDef.type.getD .string
    let values := resolveSortValues columnDef querySortField dataRow1 dataRow2
    match columnDef.sortComparer with
    | some customSorter =>
      let customSortResult := customSorter values.1 values.2 sortDirection
      if customSortResult ≠ 0 then some customSortResult else none
    | none =>
      let sortResult := sortByFieldType fieldType values.1 values.2 sortDirection
      if sortResult ≠ 0 then some sortResult else none

/-- `sortComparers(sortColumns, dataRow1, dataRow2)` (lines 435-445):
return the first directive's defined result, `SortDirectionNumber.neutral`
(0) when every directive stays undefined or the list is empty. -/
def sortComparers (sortColumns : List ColumnSort) (dataRow1 dataRow2 : Row) : Int :=
  match sortColumns with
  | [] => 0
  | sortColumn :: rest =>
    match sortComparer sortColumn dataRow1 dataRow2 with
    | some result => result
    | none => sortComparers rest dataRow1 dataRow2

/-! ## `modifyDatasetToAddTreeItemsMapping` (utilities.ts lines 195-213)

For each row in index order: overwrite its roll-up property with the
single-element array holding the row's value of the tree column
(`items[i][treeDataColumn.id]`); then, when the row's parent property is
not strictly `null`, repeatedly look the parent up through the data view
and replace the parent's roll-up array by the deduplicated concatenation
with the current row's roll-up array, climbing the chain until the lookup
fails.  Failure modes of the source are explicit here: reading `.concat`
off a missing/non-array roll-up value throws (`typeError`; a pre-existing
*string* roll-up value would instead string-concatenate in JavaScript —
the claims below all assume the roll-up property is absent from the input,
as the tree pipeline guarantees), and a cyclic parent chain never ends
(`fuelExhausted`, unreachable when every parent resolves to an earlier
row). -/

/-- Errors this pass can hit. -/
inductive TreeErr where
  | typeError
  | fuelExhausted

/-- Index of the first element satisfying `p`, counting from `i`. -/
def findIdxFrom (p : Row → Bool) : List Row → Nat → Option Nat
  | [], _ => none
  | r :: rest, i => if p r then some i else findIdxFrom p rest (i + 1)

/-- Modelled from the spec: the row source's identifier-keyed lookup
`getById(id) -> Row | undefined` of §6 (`dataView.getItemById`; the SlickGrid
DataView is an external collaborator, not among the provided sources).  The
dataset identifier property defaults to `id`; the index is a dictionary
keyed by the identifier's string form.  Returns the index of the first
matching row. -/
def getItemByIdIdx (state : List Row) (v : JVal) : Option Nat :=
  findIdxFrom (fun r => decide (toKeyString (getFieldJ r "id") = toKeyString v)) state 0

/-- The `while (parent)` climb of `modifyDatasetToAddTreeItemsMapping`:
`parent[ti] = dedupePrimitiveArray(parent[ti].concat(item[ti])); item =
parent; parent = dataView.getItemById(item[parentProp])`. -/
def walkUp (parentProp tiProp : String) :
    Nat → List Row → Nat → Except TreeErr (List Row)
  | 0, _, _ => .error .fuelExhausted
  | fuel + 1, state, cur =>
    match getItemByIdIdx state (getFieldJ (state.getD cur []) parentProp) with
    | none => .ok state
    | some pj =>
      match getFieldJ (state.getD pj []) tiProp with
      | .arr parentTi =>
        let itemTi :=
          match getFieldJ (state.getD cur []) tiProp with
          | .arr vs => vs
          | v => [v]
        let merged := dedupePrimitiveArray (parentTi ++ itemTi)
        let state' := modifyAt (fun r => setField r tiProp (.arr merged)) state pj
        walkUp parentProp tiProp fuel state' pj
      | _ => .error .typeError

/-- One iteration of the `for` loop: seed `items[i][tiProp]`, then climb
when `items[i][parentProp] !== null`. -/
def rollUpItem (colId parentProp tiProp : String) (state : List Row) (i : Nat) :
    Except TreeErr (List Row) :=
  let seeded :=
    modifyAt (fun r => setField r tiProp (.arr [getFieldJ r colId])) state i
  if strictEq (getFieldJ (seeded.getD i []) parentProp) .null then .ok seeded
  else walkUp parentProp tiProp (seeded.length + 1) seeded i

/-- The `for` loop over all indices. -/
def rollUpLoop (colId parentProp tiProp : String) :
    List Nat → List Row → Except TreeErr (List Row)
  | [], state => .ok state
  | i :: rest, state =>
    (rollUpItem colId parentProp tiProp state i).bind
      (rollUpLoop colId parentProp tiProp rest)

/-- `modifyDatasetToAddTreeItemsMapping(items, treeDataColumn, dataView)`:
the data view is the identifier-keyed lookup over the same `items` array. -/
def modifyDatasetToAddTreeItemsMapping (items : List Row) (treeDataColumn : Column) :
    Except TreeErr (List Row) :=
  let parentProp := resolveProp (treeDataColumn.treeData.bind (·.parentPropName)) "__parentId"
  let tiProp := resolveProp (treeDataColumn.treeData.bind (·.itemMapPropName)) "__treeItems"
  rollUpLoop treeDataColumn.id parentProp tiProp (List.range items.length) items

/-! ## `SortService.updateSorting` (sort.service.ts lines 526-551)

The service state kept by this method: the grid options the `_gridOptions`
getter yields (when no grid is attached the getter yields the empty object
`{}`, represented by the structure's defaults), the column definitions,
and `_currentLocalSorters`.  Observable outward calls (pub/sub publishes,
data-view sorting, UI sort-column updates, backend-service calls) are
recorded as a list of effects; a thrown error is `Except.error` and
produces neither a new state nor any effect. -/

/-- A sorter descriptor as supplied to `updateSorting`
(`CurrentSorter`: column id + direction string such as `"asc"`/`"DESC"`). -/
structure CurrentSorter where
  columnId : String
  direction : String

/-- The backend-service adapter slice `updateSorting` touches:
whether `service.updateSorters` exists, and the sorters
`service.getCurrentSorters()` reports (used by the remote
`emitSortChanged`). -/
structure BackendApiModel where
  hasUpdateSorters : Bool := true
  currentSorters : List CurrentSorter := []

/-- The grid options `updateSorting` reads. -/
structure GridOption where
  enableSorting : Option Bool := none
  backendServiceApi : Option BackendApiModel := none

/-- The sort-service state. -/
structure SortServiceState where
  gridOptions : GridOption := {}
  columnDefinitions : List Column := []
  currentLocalSorters : List CurrentSorter := []

/-- Outward-visible calls of the sort service. -/
inductive SortEffect where
  | publishSortChanged (sorters : List CurrentSorter)
  | localSortApplied (sortCols : List ColumnSort)
  | setSortColumnsUI (cols : List (String × Bool))
  | backendUpdateSorters (sorters : List CurrentSorter)
  | backendRefreshDataset

/-- `loadGridSorters(sorters)` (lines 284-310): reset
`_currentLocalSorters`, resolve each sorter's column definition (skipping
unknown column ids), apply the local sort and update the UI sort
columns. -/
def loadGridSorters (state : SortServiceState) (sorters : List CurrentSorter) :
    SortServiceState × List SortEffect :=
  let resolved := sorters.filterMap fun sorter =>
    (state.columnDefinitions.find? fun col => decide (col.id = sorter.columnId)).map
      fun gridColumn =>
        ({ columnId := gridColumn.id,
           sortAsc := strToUpper sorter.direction = "ASC",
           sortCol := some gridColumn : ColumnSort },
         { columnId := gridColumn.id,
           direction := strToUpper sorter.direction : CurrentSorter })
  let sortCols := resolved.map (·.1)
  let state' := { state with currentLocalSorters := resolved.map (·.2) }
  (state', [.localSortApplied sortCols,
            .setSortColumnsUI (sortCols.map fun col => (col.columnId, col.sortAsc))])

/-- `emitSortChanged(sender, ...)` (lines 238-252) reduced to the two
sender cases `updateSorting` uses (no explicit sorter argument): remote
publishes the backend service's current sorters, local publishes
`_currentLocalSorters`. -/
def emitSortChanged (state : SortServiceState) (remote : Bool) : List SortEffect :=
  if remote then
    match state.gridOptions.backendServiceApi with
    | some api => [.publishSortChanged api.currentSorters]
    | none => []
  else [.publishSortChanged state.currentLocalSorters]

/-- `updateSorting(sorters, emitChangedEvent = true, triggerBackendQuery =
true)`: throw when sorting is not enabled in the grid options; otherwise
run the backend or the local path and optionally emit the sort-changed
event. -/
def updateSorting (state : SortServiceState) (sorters : List CurrentSorter)
    (emitChangedEvent : Bool := true) (triggerBackendQuery : Bool := true) :
    Except String (SortServiceState × List SortEffect) :=
  if ¬ state.gridOptions.enableSorting.getD false then
    .error "[Slickgrid-Universal] in order to use \"updateSorting\" method, you need to have Sortable Columns defined in your grid and \"enableSorting\" set in your Grid Options"
  else
    match state.gridOptions.backendServiceApi with
    | some api =>
      let backendEffects :=
        if api.hasUpdateSorters then
          .backendUpdateSorters sorters ::
            (if triggerBackendQuery then [.backendRefreshDataset] else [])
        else []
      let emitted := if emitChangedEvent then emitSortChanged state true else []
      .ok (state, backendEffects ++ emitted)
    | none =>
      let (state', localEffects) := loadGridSorters state sorters
      let emitted := if emitChangedEvent then emitSortChanged state' false else []
      .ok (state', localEffects ++ emitted)

/-! ## Frame model of `convertParentChildFlatArrayToHierarchicalView`
(utilities.ts lines 45-79, the `$.extend(true, [], flatArray)` deep copy)

To state that the conversion never mutates its input, object identity is
made explicit: a heap is a list of row objects addressed by position, and
the caller's flat array is a list of addresses.  The function's first
statement deep-copies every input row to a fresh address; the whole pass
then reads and mutates only the copies (the `all` lookup, the bookkeeping
deletes, the children attachment), so the heap model appends the processed
copies and leaves every pre-existing address untouched.  A copy is the
`all`-entry for its key when no later copy shares the key (later
assignments `all[k] = item` overwrite earlier ones); only those entries
have their bookkeeping properties deleted.  Children arrays live as
address links (`hierChildKeys` over the copies), not as scalar fields. -/

/-- Address of the `all`-entry for the key of copy `j`: the last copy
whose key equals copy `j`'s key. -/
def isAllWinner (idProp : String) (copies : List Row) (j : Nat) : Bool :=
  decide (∀ j' < copies.length,
    idKeyOf idProp (copies.getD j' []) = idKeyOf idProp (copies.getD j []) → j' ≤ j)

/-- The heap-level conversion: deep-copy the input rows to fresh
addresses, run the pass on the copies (deleting bookkeeping fields of each
`all`-entry), and return the new heap together with the addresses of the
returned roots. -/
def convertParentChildHeap (heap : List Row) (inputAddrs : List Nat)
    (opts : Option ConvOptions := none) : List Row × List Nat :=
  let idProp := resolveProp (opts.bind (·.identifierPropName)) "id"
  let copies := inputAddrs.map fun a => heap.getD a []
  let base := heap.length
  let finalCopies := (List.range copies.length).map fun j =>
    if isAllWinner idProp copies j then cleanRow (copies.getD j []) else copies.getD j []
  let rootAddrs := (hierRoots opts copies).filterMap fun k =>
    ((List.range copies.length).reverse.find? fun j =>
      decide (idKeyOf idProp (copies.getD j []) = k)).map (base + ·)
  (heap ++ finalCopies, rootAddrs)

/-! ## Concrete instances and auxiliary definitions used by the theorems below -/

/-- The truth condition claimed for `parseBoolean`: the input is the
string `true` or `1` (case-insensitive), the boolean `true`, or the
number 1. -/
def claimedParseTrue (v : JVal) : Bool :=
  match v with
  | .str s => s.toLower = "true" || s = "1"
  | .bool b => b
  | .num n => n = 1
  | _ => false

/-- A numeric column used to instantiate the sort theorems. -/
def numericColumn : Column := { id := "n", field := "n", type := some .number }

/-- A directive sorting ascending by `numericColumn`. -/
def numericDirective : ColumnSort :=
  { columnId := "n", sortAsc := true, sortCol := some numericColumn }

/-- A direction-sensitive custom comparator: it returns the direction
value it is handed (`1` ascending, `-1` descending) — a comparator is
*expected* to account for the direction itself (§4.4), so such comparators
are the intended usage, not a pathology. -/
def directionProbeComparer : JVal → JVal → Int → Int := fun _ _ d => d

/-- A column carrying the direction-sensitive custom comparator. -/
def directionProbeColumn : Column :=
  { id := "x", field := "x", sortComparer := some directionProbeComparer }

/-- Rows used to instantiate the custom-comparator theorem. -/
def probeRow1 : Row := [("x", .num 3)]

/-- Second probe row. -/
def probeRow2 : Row := [("x", .num 5)]

/-- A custom comparator that ignores the direction argument. -/
def constantComparer : JVal → JVal → Int → Int := fun _ _ _ => 1

/-- A column carrying the direction-independent custom comparator. -/
def constantComparerColumn : Column :=
  { id := "x", field := "x", sortComparer := some constantComparer }

/-- The generic accumulator form of `hierAll`. -/
def hierAllFrom (idProp : String) (flatArray : List Row) (acc : List (String × Row)) :
    List (String × Row) :=
  flatArray.foldl (fun acc item => objInsert (idKeyOf idProp item) item acc) acc

/-- The single-row input whose declared parent matches no row. -/
def danglingRow : Row := [("id", .num 1), ("parentId", .num 99)]

/-- A malformed tree repeating the identifier 1 at two levels. -/
def duplicateIdTree : List HTree :=
  [.node [("id", .num 1)]
    (some [.node [("id", .num 1)] none, .node [("id", .num 2)] none])]

/-- The flat 3-row chain of the claim:
`[{id:1}, {id:2, parentId:1}, {id:3, parentId:2}]`. -/
def chainFlat : List Row :=
  [[("id", .num 1)],
   [("id", .num 2), ("parentId", .num 1)],
   [("id", .num 3), ("parentId", .num 2)]]

/-- String form of the tree-column value of row `i`. -/
def colKey (items : List Row) (colId : String) (i : Nat) : String :=
  toKeyString (getFieldJ (items.getD i []) colId)

/-- `j` lies on the parent chain climbed from `i` (reflexive). -/
inductive AncestorOrSelf (items : List Row) (parentProp : String) : Nat → Nat → Prop where
  | refl (i : Nat) : AncestorOrSelf items parentProp i i
  | step {i p j : Nat} :
      getItemByIdIdx items (getFieldJ (items.getD i []) parentProp) = some p →
      AncestorOrSelf items parentProp p j → AncestorOrSelf items parentProp i j

/-- `s` is the string form of some element of the roll-up array of row `j`
in `state`. -/
def tiKeys (tiProp : String) (state : List Row) (j : Nat) (s : String) : Prop :=
  ∃ vs, getFieldJ (state.getD j []) tiProp = .arr vs ∧ s ∈ vs.map toKeyString

/-- Invariant of the roll-up loop after the first `m` rows are processed:
lengths and non-roll-up fields are untouched, rows from `m` on have no
roll-up property yet, and every processed row `j` carries a deduplicated
roll-up array whose key set is exactly the tree-column keys of the
processed rows whose parent chain passes through `j`. -/
def RollInv (items : List Row) (colId parentProp tiProp : String) (m : Nat)
    (state : List Row) : Prop :=
  state.length = items.length ∧
  (∀ j k, k ≠ tiProp → lookupField (state.getD j []) k = lookupField (items.getD j []) k) ∧
  (∀ j, m ≤ j → lookupField (state.getD j []) tiProp = none) ∧
  (∀ j, j < m → ∃ vs, getFieldJ (state.getD j []) tiProp = .arr vs ∧
    (vs.map toKeyString).Nodup ∧
    (∀ s, s ∈ vs.map toKeyString ↔
      ∃ i, i < m ∧ AncestorOrSelf items parentProp i j ∧ colKey items colId i = s))

/-- The flat 3-row chain as the roll-up pass receives it (flattened form,
with `__parentId` bookkeeping stamped). -/
def chainItems : List Row :=
  [[("id", .num 1), ("__parentId", .null)],
   [("id", .num 2), ("__parentId", .num 1)],
   [("id", .num 3), ("__parentId", .num 2)]]

/-- A tree column whose field *is* the identifier field. -/
def idColumn : Column := { id := "id" }

/-- A row with identifier 1 and a distinct title. -/
def titleRow : Row := [("id", .num 1), ("title", .str "A"), ("__parentId", .null)]

/-- A tree column addressing the `title` field (as in the source's own doc
example, where the roll-up arrays hold the task titles). -/
def titleColumn : Column := { id := "title" }

/-! # Theorems -/

/-! ## C7 — `parseBoolean` -/

/-- C7 (counterexample): `parseBoolean(10)` returns `true` although 10 is
none of the inputs the claim allows to map to `true` — the regex
`/(true|1)/i` is unanchored and `String(10) = "10"` contains the character
`1`, so the claim's "returns false for every other input" fails. -/
theorem parseBoolean_claim_counterexample :
    parseBoolean (.num 10) = true ∧ claimedParseTrue (.num 10) = false :=
  ⟨by decide, by decide⟩

theorem truePatternAt_iff (cs : List Char) :
    truePatternAt cs = true ↔
      [ 't', 'r', 'u', 'e'] <+: cs.map Char.toLower := by
  match cs with
  | [] => simp [truePatternAt]
  | [c1] => simp [truePatternAt, List.cons_prefix_cons]
  | [c1, c2] => simp [truePatternAt, List.cons_prefix_cons]
  | [c1, c2, c3] => simp [truePatternAt, List.cons_prefix_cons]
  | c1 :: c2 :: c3 :: c4 :: rest =>
    simp only [truePatternAt, Bool.and_eq_true, decide_eq_true_eq, List.map_cons,
      List.cons_prefix_cons, and_assoc]
    constructor
    · rintro ⟨h1, h2, h3, h4⟩
      exact ⟨h1.symm, h2.symm, h3.symm, h4.symm, List.nil_prefix⟩
    · rintro ⟨h1, h2, h3, h4, -⟩
      exact ⟨h1.symm, h2.symm, h3.symm, h4.symm⟩

theorem regexTestTrueOr1_iff (cs : List Char) :
    regexTestTrueOr1 cs = true ↔
      ('1' ∈ cs ∨ [ 't', 'r', 'u', 'e'] <:+: cs.map Char.toLower) := by
  induction cs with
  | nil => simp [regexTestTrueOr1]
  | cons c rest ih =>
    rw [regexTestTrueOr1]
    simp only [Bool.or_eq_true, truePatternAt_iff, ih, List.mem_cons,
      List.map_cons, List.infix_cons_iff, decide_eq_true_eq]
    tauto

/-- C7 (amended): `parseBoolean` returns `true` exactly when the string
form of its input contains the character `1` or the substring `true`
case-insensitively, anywhere (the regex is unanchored); in particular the
originally claimed inputs — the strings `"true"`/`"TRUE"`/`"1"`, the
boolean `true` and the number 1 — all map to `true`.  Being a total
function of the embedded value, it throws for no input. -/
theorem parseBoolean_amended :
    (∀ v : JVal, parseBoolean v = true ↔
      ('1' ∈ (toKeyString v).toList ∨
        [ 't', 'r', 'u', 'e'] <:+: ((toKeyString v).toList.map Char.toLower))) ∧
    parseBoolean (.str "true") = true ∧ parseBoolean (.str "TRUE") = true ∧
    parseBoolean (.str "1") = true ∧ parseBoolean (.bool true) = true ∧
    parseBoolean (.num 1) = true :=
  ⟨fun v => regexTestTrueOr1_iff (toKeyString v).toList,
    by decide, by decide, by decide, by decide, by decide⟩

/-! ## C10 — `dedupePrimitiveArray` -/

theorem dedupeAux_sublist (xs : List JVal) :
    ∀ seen, List.Sublist (dedupeAux xs seen) xs := by
  induction xs with
  | nil => intro seen; simp [dedupeAux]
  | cons x rest ih =>
    intro seen
    rw [dedupeAux]
    by_cases h : toKeyString x ∈ seen
    · simp only [h, if_pos]
      exact (ih seen).trans (List.sublist_cons_self x rest)
    · simp only [h, if_neg, not_false_iff]
      exact (ih (toKeyString x :: seen)).cons₂ x

theorem dedupeAux_not_mem_seen (xs : List JVal) :
    ∀ seen y, y ∈ dedupeAux xs seen → toKeyString y ∉ seen := by
  induction xs with
  | nil => intro seen y hy; simp [dedupeAux] at hy
  | cons x rest ih =>
    intro seen y hy
    rw [dedupeAux] at hy
    by_cases h : toKeyString x ∈ seen
    · rw [if_pos h] at hy
      exact ih seen y hy
    · rw [if_neg h] at hy
      rcases List.mem_cons.mp hy with rfl | hy'
      · exact h
      · have := ih _ y hy'
        intro hc
        exact this (List.mem_cons_of_mem _ hc)

theorem dedupeAux_key_nodup (xs : List JVal) :
    ∀ seen, ((dedupeAux xs seen).map toKeyString).Nodup := by
  induction xs with
  | nil => intro seen; simp [dedupeAux]
  | cons x rest ih =>
    intro seen
    rw [dedupeAux]
    by_cases h : toKeyString x ∈ seen
    · rw [if_pos h]; exact ih seen
    · rw [if_neg h]
      refine List.nodup_cons.mpr ⟨?_, ih _⟩
      intro hc
      rcases List.mem_map.mp hc with ⟨y, hy, hkey⟩
      have := dedupeAux_not_mem_seen rest _ y hy
      exact this (hkey ▸ List.mem_cons_self _ _)

theorem dedupeAux_first_occurrence (xs : List JVal) :
    ∀ seen pre x post, xs = pre ++ x :: post →
      (∀ y ∈ pre, toKeyString y ≠ toKeyString x) → toKeyString x ∉ seen →
      x ∈ dedupeAux xs seen := by
  induction xs with
  | nil =>
    intro seen pre x post habs
    exact absurd habs (by simp)
  | cons z rest ih =>
    intro seen pre x post heq hpre hseen
    match pre, heq with
    | [], heq =>
      have hz : z = x := by simpa using congrArg (fun l => l.headI) heq
      subst hz
      rw [dedupeAux, if_neg hseen]
      exact List.mem_cons_self _ _
    | p :: pre', heq =>
      have hz : z = p := by simpa using congrArg (fun l => l.headI) heq
      subst hz
      have hrest : rest = pre' ++ x :: post := by simpa using heq
      have hpk : toKeyString z ≠ toKeyString x := hpre z (List.mem_cons_self _ _)
      rw [dedupeAux]
      by_cases h : toKeyString z ∈ seen
      · rw [if_pos h]
        exact ih seen pre' x post hrest (fun y hy => hpre y (List.mem_cons_of_mem _ hy)) hseen
      · rw [if_neg h]
        refine List.mem_cons_of_mem _ ?_
        refine ih _ pre' x post hrest (fun y hy => hpre y (List.mem_cons_of_mem _ hy)) ?_
        intro hc
        rcases List.mem_cons.mp hc with hc1 | hc2
        · exact hpk hc1.symm
        · exact hseen hc2

theorem dedupeAux_mem_is_first (xs : List JVal) :
    ∀ seen x, x ∈ dedupeAux xs seen →
      ∃ pre post, xs = pre ++ x :: post ∧
        ∀ y ∈ pre, toKeyString y ≠ toKeyString x ∨ toKeyString y ∈ seen := by
  induction xs with
  | nil => intro seen x hx; simp [dedupeAux] at hx
  | cons z rest ih =>
    intro seen x hx
    rw [dedupeAux] at hx
    by_cases h : toKeyString z ∈ seen
    · rw [if_pos h] at hx
      obtain ⟨pre, post, heq, hpre⟩ := ih seen x hx
      exact ⟨z :: pre, post, by simp [heq], by
        intro y hy
        rcases List.mem_cons.mp hy with rfl | hy'
        · exact Or.inr h
        · exact hpre y hy'⟩
    · rw [if_neg h] at hx
      rcases List.mem_cons.mp hx with rfl | hx'
      · exact ⟨[], rest, rfl, by simp⟩
      · obtain ⟨pre, post, heq, hpre⟩ := ih _ x hx'
        have hxk : toKeyString x ∉ (toKeyString z :: seen) :=
          dedupeAux_not_mem_seen rest _ x hx'
        refine ⟨z :: pre, post, by simp [heq], ?_⟩
        intro y hy
        rcases List.mem_cons.mp hy with rfl | hy'
        · left
          intro hc
          exact hxk (hc ▸ List.mem_cons_self _ _)
        · rcases hpre y hy' with h1 | h2
          · exact Or.inl h1
          · rcases List.mem_cons.mp h2 with h3 | h4
            · left
              intro hc
              exact hxk (by rw [← hc, h3]; exact List.mem_cons_self _ _)
            · exact Or.inr h4

/-- C10: `dedupePrimitiveArray` keeps, in first-occurrence order, exactly
one element per string representation — the output is a sublist of the
input whose string forms are pairwise distinct, it contains every element
that is the first of its string form in the input, and conversely every
output element is the first of its string form in the input (so the number
1 and the string `"1"` are conflated and only the first survives). -/
theorem dedupePrimitiveArray_spec (inputArray : List JVal) :
    ((dedupePrimitiveArray inputArray).map toKeyString).Nodup ∧
    List.Sublist (dedupePrimitiveArray inputArray) inputArray ∧
    (∀ pre x post, inputArray = pre ++ x :: post →
      (∀ y ∈ pre, toKeyString y ≠ toKeyString x) →
      x ∈ dedupePrimitiveArray inputArray) ∧
    (∀ x ∈ dedupePrimitiveArray inputArray, ∃ pre post,
      inputArray = pre ++ x :: post ∧
        ∀ y ∈ pre, toKeyString y ≠ toKeyString x) := by
  refine ⟨dedupeAux_key_nodup inputArray [], dedupeAux_sublist inputArray [], ?_, ?_⟩
  · intro pre x post heq hpre
    exact dedupeAux_first_occurrence inputArray [] pre x post heq hpre (by simp)
  · intro x hx
    obtain ⟨pre, post, heq, hpre⟩ := dedupeAux_mem_is_first inputArray [] x hx
    refine ⟨pre, post, heq, ?_⟩
    intro y hy
    rcases hpre y hy with h1 | h2
    · exact h1
    · simp at h2

/-! ## C5 — multi-column tie-break chaining -/

/-- C5: for a non-empty sequence of sort directives, `sortComparers`
returns the first directive's non-neutral (defined) comparison; a neutral
(undefined) comparison hands over to the remaining directives; and when
every directive of the sequence — or an empty sequence — is neutral, the
rows compare as equal (0). -/
theorem sortComparers_tie_break_chaining (dataRow1 dataRow2 : Row) :
    (∀ (d : ColumnSort) (rest : List ColumnSort) (v : Int),
      sortComparer d dataRow1 dataRow2 = some v →
      sortComparers (d :: rest) dataRow1 dataRow2 = v) ∧
    (∀ (d : ColumnSort) (rest : List ColumnSort),
      sortComparer d dataRow1 dataRow2 = none →
      sortComparers (d :: rest) dataRow1 dataRow2 = sortComparers rest dataRow1 dataRow2) ∧
    (∀ ds : List ColumnSort,
      (∀ d ∈ ds, sortComparer d dataRow1 dataRow2 = none) →
      sortComparers ds dataRow1 dataRow2 = 0) := by
  refine ⟨?_, ?_, ?_⟩
  · intro d rest v h
    rw [sortComparers, h]
  · intro d rest h
    rw [sortComparers, h]
  · intro ds h
    induction ds with
    | nil => rfl
    | cons d rest ih =>
      rw [sortComparers, h d (List.mem_cons_self _ _)]
      exact ih fun d' hd' => h d' (List.mem_cons_of_mem _ hd')

/-- C5 (witness): on two rows holding the same value of the sorted field,
the single numeric directive is neutral and the rows compare as equal. -/
theorem sortComparers_tie_break_chaining_witness :
    sortComparers [numericDirective] [("n", .num 7)] [("n", .num 7)] = 0 :=
  (sortComparers_tie_break_chaining [("n", .num 7)] [("n", .num 7)]).2.2
    [numericDirective] (by decide)

/-! ## C4 — custom comparator precedence and direction asymmetry -/

/-- C4 (counterexample): with a custom comparator that heeds the direction
argument (as custom comparators are expected to), the sign returned by
`sortComparer` is `1` for the ascending directive and `-1` for the
descending one — not identical, contradicting the claim that the returned
sign is the same for an ascending and a descending directive. -/
theorem sortComparer_direction_counterexample :
    sortComparer { columnId := "x", sortAsc := true, sortCol := some directionProbeColumn }
        [] [] = some 1 ∧
    sortComparer { columnId := "x", sortAsc := false, sortCol := some directionProbeColumn }
        [] [] = some (-1) :=
  ⟨rfl, rfl⟩

/-- C4 (amended): when the column defines a custom comparator and it
returns a non-neutral result, `sortComparer` returns exactly that result —
unchanged by the directive's direction (the inversion applied inside the
generic comparator is never applied to a custom result; the direction is
only passed *to* the comparator) — and `sortComparers` returns it without
consulting any later directive; consequently the returned sign is
identical for an ascending and a descending directive whenever the custom
comparator's result does not depend on the direction argument. -/
theorem sortComparer_custom_precedence
    (columnDef : Column) (c : JVal → JVal → Int → Int) (cid : String)
    (hc : columnDef.sortComparer = some c)
    (dataRow1 dataRow2 : Row) (v1 v2 : JVal)
    (hv : resolveSortValues columnDef none dataRow1 dataRow2 = (v1, v2)) :
    (∀ b : Bool, c v1 v2 (if b then 1 else -1) ≠ 0 →
      sortComparer ⟨cid, b, some columnDef⟩ dataRow1 dataRow2 =
        some (c v1 v2 (if b then 1 else -1)) ∧
      ∀ rest : List ColumnSort,
        sortComparers (⟨cid, b, some columnDef⟩ :: rest) dataRow1 dataRow2 =
          c v1 v2 (if b then 1 else -1)) ∧
    ((∀ d₁ d₂ : Int, c v1 v2 d₁ = c v1 v2 d₂) →
      sortComparer ⟨cid, true, some columnDef⟩ dataRow1 dataRow2 =
        sortComparer ⟨cid, false, some columnDef⟩ dataRow1 dataRow2) := by
  have hmain : ∀ b : Bool,
      sortComparer ⟨cid, b, some columnDef⟩ dataRow1 dataRow2 =
        (if c v1 v2 (if b then 1 else -1) ≠ 0
          then some (c v1 v2 (if b then 1 else -1)) else none) := by
    intro b
    unfold sortComparer
    simp only [hc, hv]
  refine ⟨?_, ?_⟩
  · intro b hne
    have h1 : sortComparer ⟨cid, b, some columnDef⟩ dataRow1 dataRow2 =
        some (c v1 v2 (if b then 1 else -1)) := by
      rw [hmain b, if_pos hne]
    refine ⟨h1, ?_⟩
    intro rest
    rw [sortComparers, h1]
  · intro hdir
    rw [hmain true, hmain false]
    have h1 : (if (true = true) then (1 : Int) else -1) = 1 := rfl
    have h2 : (if (false = true) then (1 : Int) else -1) = -1 := rfl
    rw [h1, h2, hdir 1 (-1)]

/-- C4 (witness): the amended theorem applied to the
direction-independent comparator that always answers `1`: its result wins
for both directions (no inversion), later directives are never consulted,
and ascending and descending directives agree. -/
theorem sortComparer_custom_precedence_witness :
    (sortComparer ⟨"x", true, some constantComparerColumn⟩ probeRow1 probeRow2 = some 1 ∧
      ∀ rest : List ColumnSort,
        sortComparers (⟨"x", true, some constantComparerColumn⟩ :: rest) probeRow1 probeRow2 = 1) ∧
    sortComparer ⟨"x", true, some constantComparerColumn⟩ probeRow1 probeRow2 =
      sortComparer ⟨"x", false, some constantComparerColumn⟩ probeRow1 probeRow2 :=
  ⟨(sortComparer_custom_precedence constantComparerColumn constantComparer "x" rfl
      probeRow1 probeRow2 (.num 3) (.num 5) rfl).1 true (by decide),
    (sortComparer_custom_precedence constantComparerColumn constantComparer "x" rfl
      probeRow1 probeRow2 (.num 3) (.num 5) rfl).2 fun _ _ => rfl⟩

/-! ## C8 — `updateSorting` configuration error -/

/-- C8: for every sorter list and flag combination, calling
`updateSorting` when `enableSorting` is not set in the grid options (also
when no grid options are attached at all, in which case the
`_gridOptions` getter yields the empty object) throws the configuration
error synchronously to the caller; the thrown path produces no new
service state (the sorter state is untouched) and records no effect (no
sort-changed event is published, no backend call is made). -/
theorem updateSorting_config_error
    (state : SortServiceState) (sorters : List CurrentSorter)
    (emitChangedEvent triggerBackendQuery : Bool)
    (h : state.gridOptions.enableSorting.getD false = false) :
    updateSorting state sorters emitChangedEvent triggerBackendQuery =
      .error "[Slickgrid-Universal] in order to use \"updateSorting\" method, you need to have Sortable Columns defined in your grid and \"enableSorting\" set in your Grid Options" := by
  unfold updateSorting
  simp [h]

/-- C8 (witness): a freshly constructed service (no grid attached, hence
empty grid options) throws on `updateSorting`. -/
theorem updateSorting_config_error_witness :
    updateSorting {} [{ columnId := "n", direction := "asc" }] true true =
      .error "[Slickgrid-Universal] in order to use \"updateSorting\" method, you need to have Sortable Columns defined in your grid and \"enableSorting\" set in your Grid Options" :=
  updateSorting_config_error {} [{ columnId := "n", direction := "asc" }] true true rfl

/-- C10 (witness): the spec applied to the concrete input `[1, "1", 2]` —
the string `"1"` is conflated with the number 1 and dropped. -/
theorem dedupePrimitiveArray_spec_witness :
    JVal.num 1 ∈ dedupePrimitiveArray [.num 1, .str "1", .num 2] ∧
    ((dedupePrimitiveArray [.num 1, .str "1", .num 2]).map toKeyString).Nodup :=
  ⟨(dedupePrimitiveArray_spec [.num 1, .str "1", .num 2]).2.2.1 [] (.num 1) [.str "1", .num 2]
      rfl (by simp),
    (dedupePrimitiveArray_spec [.num 1, .str "1", .num 2]).1⟩

/-! ## Association-list lemmas for the conversion graph -/

theorem objInsert_mem {α : Type} (k : String) (v : α) :
    ∀ (l : List (String × α)) (p : String × α),
      p ∈ objInsert k v l → p = (k, v) ∨ p ∈ l := by
  intro l
  induction l with
  | nil => intro p hp; simpa [objInsert] using hp
  | cons x rest ih =>
    intro p hp
    rw [objInsert] at hp
    by_cases hk : x.1 = k
    · rw [if_pos hk] at hp
      rcases List.mem_cons.mp hp with rfl | hp'
      · exact Or.inl rfl
      · exact Or.inr (List.mem_cons_of_mem _ hp')
    · rw [if_neg hk] at hp
      rcases List.mem_cons.mp hp with rfl | hp'
      · exact Or.inr (List.mem_cons_self _ _)
      · rcases ih p hp' with h | h
        · exact Or.inl h
        · exact Or.inr (List.mem_cons_of_mem _ h)

theorem objInsert_keys {α : Type} (k : String) (v : α) :
    ∀ l : List (String × α),
      (objInsert k v l).map Prod.fst =
        if k ∈ l.map Prod.fst then l.map Prod.fst else l.map Prod.fst ++ [k] := by
  intro l
  induction l with
  | nil => simp [objInsert]
  | cons x rest ih =>
    rw [objInsert]
    by_cases hk : x.1 = k
    · rw [if_pos hk]
      simp [hk]
    · rw [if_neg hk]
      by_cases hm : k ∈ rest.map Prod.fst
      · simp only [List.map_cons, ih, if_pos hm]
        rw [if_pos (List.mem_cons_of_mem _ hm)]
      · have : k ∉ (x :: rest).map Prod.fst := by
          simp only [List.map_cons, List.mem_cons]
          rintro (h | h)
          · exact hk h.symm
          · exact hm h
        rw [List.map_cons] at this
        simp only [List.map_cons, ih, if_neg hm, if_neg this, List.cons_append]

theorem hierAll_eq_from (idProp : String) (flatArray : List Row) :
    hierAll idProp flatArray = hierAllFrom idProp flatArray [] := rfl

theorem hierAllFrom_keys_nodup (idProp : String) :
    ∀ (flatArray : List Row) (acc : List (String × Row)),
      (acc.map Prod.fst).Nodup → ((hierAllFrom idProp flatArray acc).map Prod.fst).Nodup := by
  intro flatArray
  induction flatArray with
  | nil => intro acc h; simpa [hierAllFrom] using h
  | cons r rest ih =>
    intro acc h
    rw [hierAllFrom, List.foldl_cons]
    refine ih _ ?_
    rw [objInsert_keys]
    by_cases hm : idKeyOf idProp r ∈ acc.map Prod.fst
    · rwa [if_pos hm]
    · rw [if_neg hm]
      refine List.Nodup.append h (List.nodup_singleton _) ?_
      intro a ha hb
      rw [List.mem_singleton] at hb
      subst hb
      exact hm ha

theorem hierAll_keys_nodup (idProp : String) (flatArray : List Row) :
    ((hierAll idProp flatArray).map Prod.fst).Nodup := by
  rw [hierAll_eq_from]
  exact hierAllFrom_keys_nodup idProp flatArray [] (by simp)

theorem hierAllFrom_mem_keys (idProp : String) :
    ∀ (flatArray : List Row) (acc : List (String × Row)) (k : String),
      (k ∈ (hierAllFrom idProp flatArray acc).map Prod.fst ↔
        k ∈ acc.map Prod.fst ∨ ∃ r ∈ flatArray, idKeyOf idProp r = k) := by
  intro flatArray
  induction flatArray with
  | nil => intro acc k; simp [hierAllFrom]
  | cons r rest ih =>
    intro acc k
    rw [hierAllFrom, List.foldl_cons]
    rw [show List.foldl (fun acc item => objInsert (idKeyOf idProp item) item acc)
        (objInsert (idKeyOf idProp r) r acc) rest =
      hierAllFrom idProp rest (objInsert (idKeyOf idProp r) r acc) from rfl, ih]
    constructor
    · rintro (h | h)
      · rw [objInsert_keys] at h
        by_cases hm : idKeyOf idProp r ∈ acc.map Prod.fst
        · rw [if_pos hm] at h
          exact Or.inl h
        · rw [if_neg hm] at h
          rcases List.mem_append.mp h with h' | h'
          · exact Or.inl h'
          · exact Or.inr ⟨r, List.mem_cons_self _ _, (List.mem_singleton.mp h').symm⟩
      · obtain ⟨r', hr', hk⟩ := h
        exact Or.inr ⟨r', List.mem_cons_of_mem _ hr', hk⟩
    · rintro (h | h)
      · left
        rw [objInsert_keys]
        by_cases hm : idKeyOf idProp r ∈ acc.map Prod.fst
        · rwa [if_pos hm]
        · rw [if_neg hm]
          exact List.mem_append.mpr (Or.inl h)
      · obtain ⟨r', hr', hk⟩ := h
        rcases List.mem_cons.mp hr' with rfl | hr''
        · left
          rw [objInsert_keys]
          by_cases hm : idKeyOf idProp r' ∈ acc.map Prod.fst
          · rw [if_pos hm]; exact hk ▸ hm
          · rw [if_neg hm]
            exact List.mem_append.mpr (Or.inr (by simp [hk]))
        · exact Or.inr ⟨r', hr'', hk⟩

theorem hierAll_mem_keys (idProp : String) (flatArray : List Row) (k : String) :
    k ∈ (hierAll idProp flatArray).map Prod.fst ↔
      ∃ r ∈ flatArray, idKeyOf idProp r = k := by
  rw [hierAll_eq_from, hierAllFrom_mem_keys]
  simp

theorem assoc_unique_of_keys_nodup {α : Type} :
    ∀ (l : List (String × α)), (l.map Prod.fst).Nodup →
      ∀ k (v v' : α), (k, v) ∈ l → (k, v') ∈ l → v = v' := by
  intro l
  induction l with
  | nil => intro _ k v v' h; simp at h
  | cons x rest ih =>
    intro hnd k v v' hv hv'
    rw [List.map_cons, List.nodup_cons] at hnd
    rcases List.mem_cons.mp hv with h1 | hv1
    · rcases List.mem_cons.mp hv' with h2 | hv2
      · rw [← h1] at h2
        exact (congrArg Prod.snd h2).symm
      · exfalso
        apply hnd.1
        rw [← congrArg Prod.fst h1]
        exact List.mem_map.mpr ⟨(k, v'), hv2, rfl⟩
    · rcases List.mem_cons.mp hv' with h2 | hv2
      · exfalso
        apply hnd.1
        rw [← congrArg Prod.fst h2]
        exact List.mem_map.mpr ⟨(k, v), hv1, rfl⟩
      · exact ih hnd.2 k v v' hv1 hv2

theorem collectRoots_mem (parentProp : String) :
    ∀ (l : List (String × Row)) (k : String),
      k ∈ collectRoots parentProp l ↔ ∃ r, (k, r) ∈ l ∧ isRootRow parentProp r = true := by
  intro l
  induction l with
  | nil => intro k; simp [collectRoots]
  | cons x rest ih =>
    intro k
    obtain ⟨kx, rx⟩ := x
    rw [collectRoots]
    by_cases hr : isRootRow parentProp rx
    · rw [if_pos hr]
      simp only [List.mem_cons, ih]
      constructor
      · rintro (rfl | ⟨r, hmem, hroot⟩)
        · exact ⟨rx, Or.inl rfl, hr⟩
        · exact ⟨r, Or.inr hmem, hroot⟩
      · rintro ⟨r, hmem | hmem, hroot⟩
        · exact Or.inl (congrArg Prod.fst hmem)
        · exact Or.inr ⟨r, hmem, hroot⟩
    · rw [if_neg hr]
      rw [ih]
      constructor
      · rintro ⟨r, hmem, hroot⟩
        exact ⟨r, List.mem_cons_of_mem _ hmem, hroot⟩
      · rintro ⟨r, hmem, hroot⟩
        rcases List.mem_cons.mp hmem with heq | hmem'
        · exfalso
          have hr2 : r = rx := congrArg Prod.snd heq
          rw [hr2] at hroot
          exact hr hroot
        · exact ⟨r, hmem', hroot⟩

theorem collectChildren_mem (parentProp p : String) :
    ∀ (l : List (String × Row)) (k : String),
      k ∈ collectChildren parentProp p l ↔
        ∃ r, (k, r) ∈ l ∧ isRootRow parentProp r = false ∧ parentKeyOf parentProp r = p := by
  intro l
  induction l with
  | nil => intro k; simp [collectChildren]
  | cons x rest ih =>
    intro k
    obtain ⟨kx, rx⟩ := x
    rw [collectChildren]
    by_cases hc : ¬ isRootRow parentProp rx ∧ parentKeyOf parentProp rx = p
    · rw [if_pos hc]
      simp only [List.mem_cons, ih]
      constructor
      · rintro (rfl | ⟨r, hmem, hroot, hpk⟩)
        · exact ⟨rx, Or.inl rfl, by simpa using hc.1, hc.2⟩
        · exact ⟨r, Or.inr hmem, hroot, hpk⟩
      · rintro ⟨r, hmem | hmem, hroot, hpk⟩
        · exact Or.inl (congrArg Prod.fst hmem)
        · exact Or.inr ⟨r, hmem, hroot, hpk⟩
    · rw [if_neg hc]
      rw [ih]
      constructor
      · rintro ⟨r, hmem, hroot, hpk⟩
        exact ⟨r, List.mem_cons_of_mem _ hmem, hroot, hpk⟩
      · rintro ⟨r, hmem, hroot, hpk⟩
        rcases List.mem_cons.mp hmem with heq | hmem'
        · exfalso
          have hr : r = rx := congrArg Prod.snd heq
          exact hc ⟨by rw [← hr]; simp [hroot], by rw [← hr]; exact hpk⟩
        · exact ⟨r, hmem', hroot, hpk⟩

/-! ## C2 — dangling parent references -/

/-- C2 (counterexample): the row `{id: 1, parentId: 99}` has its parent-id
field present and non-null, `99` matches no row of the input — and the
returned roots array is *empty*: the row does not appear in it (the
conversion loop's `else if (item[parentPropName] in all)` has no final
else, so such a row is attached nowhere), refuting the claim that a
dangling row is treated as a root. -/
theorem convertParentChild_dangling_counterexample :
    lookupField danglingRow "parentId" = some (.num 99) ∧
    strictEq (getFieldJ danglingRow "parentId") .null = false ∧
    convertParentChildFlatArrayToHierarchicalView [danglingRow] = [] ∧
    hierRoots none [danglingRow] = [] :=
  ⟨rfl, rfl, rfl, rfl⟩

/-- C2 (amended): for every flat input array and options, an `all`-entry
whose parent-id field is present and non-null but matches the identifier
key of no row of the input is silently *dropped*: its key is pushed
neither to the returned roots nor onto any entry's children array (and no
error is raised — the conversion is total). -/
theorem convertParentChild_dangling_dropped
    (opts : Option ConvOptions) (flatArray : List Row) (k : String) (r : Row)
    (hmem : (k, r) ∈ hierAll (resolveProp (opts.bind (·.identifierPropName)) "id") flatArray)
    (hpresent :
      (lookupField r (resolveProp (opts.bind (·.parentPropName)) "parentId")).isSome = true)
    (hnonnull :
      strictEq (getFieldJ r (resolveProp (opts.bind (·.parentPropName)) "parentId")) .null
        = false)
    (hdangling :
      parentKeyOf (resolveProp (opts.bind (·.parentPropName)) "parentId") r ∉
        flatArray.map (idKeyOf (resolveProp (opts.bind (·.identifierPropName)) "id"))) :
    k ∉ hierRoots opts flatArray ∧ ∀ p, k ∉ hierChildKeys opts flatArray p := by
  set parentProp := resolveProp (opts.bind (·.parentPropName)) "parentId" with hpp
  set idProp := resolveProp (opts.bind (·.identifierPropName)) "id" with hip
  have hnotroot : isRootRow parentProp r = false := by
    rw [isRootRow]
    rcases hl : lookupField r parentProp with _ | v
    · rw [hl] at hpresent
      simp at hpresent
    · rw [getFieldJ, hl] at hnonnull
      exact hnonnull
  have hnd := hierAll_keys_nodup idProp flatArray
  constructor
  · intro hk
    rw [hierRoots, ← hpp, ← hip] at hk
    obtain ⟨r', hr', hroot⟩ := (collectRoots_mem parentProp (hierAll idProp flatArray) k).mp hk
    have : r' = r := assoc_unique_of_keys_nodup _ hnd k r' r hr' hmem
    rw [this, hnotroot] at hroot
    exact Bool.false_ne_true hroot
  · intro p hk
    rw [hierChildKeys, ← hpp, ← hip] at hk
    by_cases hg : p ∈ (hierAll idProp flatArray).map Prod.fst
    · rw [if_pos hg] at hk
      obtain ⟨r', hr', _, hpk⟩ :=
        (collectChildren_mem parentProp p (hierAll idProp flatArray) k).mp hk
      have : r' = r := assoc_unique_of_keys_nodup _ hnd k r' r hr' hmem
      rw [this] at hpk
      rw [← hpk] at hg
      obtain ⟨rw', hrw', hkw⟩ := (hierAll_mem_keys idProp flatArray _).mp hg
      exact hdangling (List.mem_map.mpr ⟨rw', hrw', hkw⟩)
    · rw [if_neg hg] at hk
      simp at hk

/-- C2 (witness): the amended theorem applied to the dangling row
`{id: 1, parentId: 99}` — its key reaches neither the roots nor any
children array. -/
theorem convertParentChild_dangling_dropped_witness :
    "1" ∉ hierRoots none [danglingRow] ∧ ∀ p, "1" ∉ hierChildKeys none [danglingRow] p :=
  convertParentChild_dangling_dropped none [danglingRow] "1" danglingRow
    (List.mem_cons_self _ _) rfl rfl (by decide)

/-! ## C6 — duplicate-identifier defense in flattening -/

theorem lookupField_setField_ne (r : Row) (k k' : String) (v : JVal) (h : k ≠ k') :
    lookupField (setField r k v) k' = lookupField r k' := by
  induction r with
  | nil => simp [setField, lookupField, h]
  | cons x rest ih =>
    obtain ⟨kx, vx⟩ := x
    rw [setField]
    by_cases hk : kx = k
    · rw [if_pos hk]
      subst hk
      simp only [lookupField, if_neg h]
    · rw [if_neg hk]
      simp only [lookupField]
      by_cases hk2 : kx = k'
      · rw [if_pos hk2, if_pos hk2]
      · rw [if_neg hk2, if_neg hk2]
        exact ih

theorem getFieldJ_setField_ne (r : Row) (k k' : String) (v : JVal) (h : k ≠ k') :
    getFieldJ (setField r k v) k' = getFieldJ r k' := by
  rw [getFieldJ, getFieldJ, lookupField_setField_ne r k k' v h]

theorem getFieldJ_stampRow (treeP parP idP : String) (lvl : Nat) (pid : JVal) (r : Row)
    (h1 : treeP ≠ idP) (h2 : parP ≠ idP) :
    getFieldJ (stampRow treeP parP lvl pid r) idP = getFieldJ r idP := by
  rw [stampRow, getFieldJ_setField_ne _ _ _ _ h2, getFieldJ_setField_ne _ _ _ _ h1]

theorem modifyAt_map_invariant {α β : Type} (f : α → α) (g : α → β)
    (h : ∀ a, g (f a) = g a) :
    ∀ (l : List α) (i : Nat), (modifyAt f l i).map g = l.map g := by
  intro l
  induction l with
  | nil => intro i; rfl
  | cons x rest ih =>
    intro i
    cases i with
    | zero => simp [modifyAt, h x]
    | succ n => simp [modifyAt, ih n]

theorem any_eq_false_iff (out : List Row) (p : Row → Bool) :
    out.any p = false ↔ ∀ itm ∈ out, p itm = false := by
  rw [← Bool.not_eq_true, List.any_eq_true]
  simp

mutual
theorem flattenOne_ids_pairwise (idP treeP parP hasP : String)
    (h1 : treeP ≠ idP) (h2 : parP ≠ idP) (h3 : hasP ≠ idP) :
    ∀ (t : HTree) (lvl : Nat) (pid : JVal) (out : List Row),
      (out.map fun itm => getFieldJ itm idP).Pairwise (fun a b => strictEq a b = false) →
      ((flattenOne idP treeP parP hasP lvl pid t out).map fun itm =>
        getFieldJ itm idP).Pairwise (fun a b => strictEq a b = false)
  | .node flds cs, lvl, pid, out, hout => by
    have happend :
        (out.any fun itm => strictEq (getFieldJ itm idP) (getFieldJ flds idP)) = false →
        ((out ++ [stampRow treeP parP lvl pid flds]).map fun itm =>
          getFieldJ itm idP).Pairwise (fun a b => strictEq a b = false) := by
      intro hex
      rw [List.map_append]
      refine List.pairwise_append.mpr ⟨hout, by simp, ?_⟩
      intro a ha b hb
      rw [List.mem_map] at ha
      obtain ⟨itm, hitm, rfl⟩ := ha
      simp only [List.map_cons, List.map_nil, List.mem_singleton] at hb
      subst hb
      rw [getFieldJ_stampRow _ _ _ _ _ _ h1 h2]
      exact (any_eq_false_iff out _).mp hex itm hitm
    cases cs with
    | none =>
      rw [flattenOne]
      by_cases hex :
          (out.any fun itm => strictEq (getFieldJ itm idP) (getFieldJ flds idP)) = true
      · rw [if_pos hex]
        exact hout
      · rw [if_neg hex]
        exact happend (Bool.not_eq_true _ ▸ hex)
    | some children =>
      rw [flattenOne]
      by_cases hex :
          (out.any fun itm => strictEq (getFieldJ itm idP) (getFieldJ flds idP)) = true
      · rw [if_pos hex, if_pos hex]
        exact flattenGo_ids_pairwise idP treeP parP hasP h1 h2 h3 children (lvl + 1)
          (getFieldJ flds idP) out hout
      · rw [if_neg hex, if_neg hex]
        have hp1 := happend (Bool.not_eq_true _ ▸ hex)
        have hp2 := flattenGo_ids_pairwise idP treeP parP hasP h1 h2 h3 children (lvl + 1)
          (getFieldJ flds idP) (out ++ [stampRow treeP parP lvl pid flds]) hp1
        rw [modifyAt_map_invariant _ _
          (fun a => getFieldJ_setField_ne a hasP idP (.bool true) h3)]
        exact hp2
  termination_by structural t => t

theorem flattenGo_ids_pairwise (idP treeP parP hasP : String)
    (h1 : treeP ≠ idP) (h2 : parP ≠ idP) (h3 : hasP ≠ idP) :
    ∀ (l : List HTree) (lvl : Nat) (pid : JVal) (out : List Row),
      (out.map fun itm => getFieldJ itm idP).Pairwise (fun a b => strictEq a b = false) →
      ((flattenGo idP treeP parP hasP lvl pid l out).map fun itm =>
        getFieldJ itm idP).Pairwise (fun a b => strictEq a b = false)
  | [], _, _, out, hout => hout
  | t :: rest, lvl, pid, out, hout =>
    flattenGo_ids_pairwise idP treeP parP hasP h1 h2 h3 rest lvl pid
      (flattenOne idP treeP parP hasP lvl pid t out)
      (flattenOne_ids_pairwise idP treeP parP hasP h1 h2 h3 t lvl pid out hout)
  termination_by structural l => l
end

/-- C6: for every hierarchical input, every starting output array without
strictly-equal identifiers, every level/parent and every choice of options
whose identifier property differs from the three stamped bookkeeping
properties, the by-reference flattening emits each identifier at most once:
the identifiers of the output rows are pairwise non-strictly-equal (a node
whose identifier already occurs in the output is skipped, not appended
again), and the pass is total — no exception for malformed trees. -/
theorem flatArrayByOutputArrayReference_unique_ids
    (hierarchicalArray : List HTree) (outputArray : List Row) (opts : Option FlatOptions)
    (treeLevel : Nat) (parentId : JVal)
    (h1 : resolveProp (opts.bind (·.treeLevelPropName)) "__treeLevel" ≠
      resolveProp (opts.bind (·.identifierPropName)) "id")
    (h2 : resolveProp (opts.bind (·.parentIdPropName)) "__parentId" ≠
      resolveProp (opts.bind (·.identifierPropName)) "id")
    (h3 : resolveProp (opts.bind (·.hasChildrenFlagPropName)) "__hasChildren" ≠
      resolveProp (opts.bind (·.identifierPropName)) "id")
    (h0 : (outputArray.map fun itm =>
      getFieldJ itm (resolveProp (opts.bind (·.identifierPropName)) "id")).Pairwise
        (fun a b => strictEq a b = false)) :
    ((convertHierarchicalViewToFlatArrayByOutputArrayReference hierarchicalArray outputArray
        opts treeLevel parentId).map fun itm =>
      getFieldJ itm (resolveProp (opts.bind (·.identifierPropName)) "id")).Pairwise
        (fun a b => strictEq a b = false) :=
  flattenGo_ids_pairwise _ _ _ _ h1 h2 h3 hierarchicalArray treeLevel parentId outputArray h0

/-- C6 (witness): flattening the malformed tree that repeats identifier 1
yields pairwise distinct identifiers — concretely, two rows (the duplicate
occurrence of 1 is skipped). -/
theorem flatArrayByOutputArrayReference_unique_ids_witness :
    ((convertHierarchicalViewToFlatArrayByOutputArrayReference duplicateIdTree [] none
        0 .undefined).map fun itm => getFieldJ itm "id").Pairwise
      (fun a b => strictEq a b = false) ∧
    (convertHierarchicalViewToFlatArray duplicateIdTree).length = 2 :=
  ⟨flatArrayByOutputArrayReference_unique_ids duplicateIdTree [] none 0 .undefined
      (by decide) (by decide) (by decide) (by simp),
    rfl⟩

/-! ## C9 — the conversion never mutates its input -/

/-- C9: in the heap model of `convertParentChildFlatArrayToHierarchicalView`
(addresses make object identity explicit), the call leaves every
pre-existing heap cell — in particular the caller's flat array and every
row object it contains — exactly as it was: the new heap extends the old
one by the processed deep copies only (`$.extend(true, [], flatArray)` is
the function's first statement, and bookkeeping-field deletion and
children attachment happen on the copies), and every returned root address
is a fresh address, so the returned roots share no row object with the
input. -/
theorem convertParentChildHeap_frame (heap : List Row) (inputAddrs : List Nat)
    (opts : Option ConvOptions) :
    (convertParentChildHeap heap inputAddrs opts).1.take heap.length = heap ∧
    (convertParentChildHeap heap inputAddrs opts).1.length =
      heap.length + inputAddrs.length ∧
    ∀ a ∈ (convertParentChildHeap heap inputAddrs opts).2, heap.length ≤ a := by
  refine ⟨?_, ?_, ?_⟩
  · rw [convertParentChildHeap]
    exact List.take_left ..
  · rw [convertParentChildHeap]
    simp
  · intro a ha
    rw [convertParentChildHeap] at ha
    simp only [List.mem_filterMap, Option.map_eq_some'] at ha
    obtain ⟨k, -, j, -, rfl⟩ := ha
    exact Nat.le_add_right _ _

/-! ## C1 — flat→hierarchical→flat round trip and identifier preservation -/

theorem objInsert_of_not_mem {α : Type} (k : String) (v : α) :
    ∀ l : List (String × α), k ∉ l.map Prod.fst → objInsert k v l = l ++ [(k, v)] := by
  intro l
  induction l with
  | nil => intro _; rfl
  | cons x rest ih =>
    intro h
    rw [List.map_cons, List.mem_cons] at h
    push_neg at h
    rw [objInsert, if_neg (fun hc => h.1 hc.symm), ih h.2, List.cons_append]

theorem hierAllFrom_eq_append (idProp : String) :
    ∀ (flatArray : List Row) (acc : List (String × Row)),
      (flatArray.map (idKeyOf idProp)).Nodup →
      (∀ r ∈ flatArray, idKeyOf idProp r ∉ acc.map Prod.fst) →
      hierAllFrom idProp flatArray acc =
        acc ++ flatArray.map (fun r => (idKeyOf idProp r, r)) := by
  intro flatArray
  induction flatArray with
  | nil => intro acc _ _; simp [hierAllFrom]
  | cons r rest ih =>
    intro acc hnd hdisj
    rw [List.map_cons, List.nodup_cons] at hnd
    rw [hierAllFrom, List.foldl_cons]
    rw [show List.foldl (fun acc item => objInsert (idKeyOf idProp item) item acc)
        (objInsert (idKeyOf idProp r) r acc) rest =
      hierAllFrom idProp rest (objInsert (idKeyOf idProp r) r acc) from rfl]
    rw [objInsert_of_not_mem _ _ _ (hdisj r (List.mem_cons_self _ _))]
    rw [ih (acc ++ [(idKeyOf idProp r, r)]) hnd.2 ?_]
    · simp
    · intro r' hr'
      rw [List.map_append, List.mem_append]
      rintro (hc | hc)
      · exact hdisj r' (List.mem_cons_of_mem _ hr') hc
      · simp only [List.map_cons, List.map_nil, List.mem_singleton] at hc
        exact hnd.1 (hc ▸ List.mem_map.mpr ⟨r', hr', rfl⟩)

theorem hierAll_eq_map (idProp : String) (flatArray : List Row)
    (hnd : (flatArray.map (idKeyOf idProp)).Nodup) :
    hierAll idProp flatArray = flatArray.map (fun r => (idKeyOf idProp r, r)) := by
  rw [hierAll_eq_from, hierAllFrom_eq_append idProp flatArray [] hnd (by simp)]
  simp

/-- C1 (counterexample): for the one-row input `{id: 1, parentId: 99}` the
identifier key `1` is an identifier of the flat form but is *not*
reachable in the hierarchical form (the roots array is empty, so nothing
is reachable) — the two identifier sets differ, refuting the general
lossless-dual part of the claim. -/
theorem roundTrip_identifier_counterexample :
    "1" ∈ [danglingRow].map (idKeyOf "id") ∧
    ¬ ReachableKey none [danglingRow] "1" := by
  refine ⟨by decide, ?_⟩
  have hall : ∀ k, ¬ ReachableKey none [danglingRow] k := by
    intro k h
    induction h with
    | root hr =>
      have he : hierRoots none [danglingRow] = [] := rfl
      rw [he] at hr
      exact absurd hr (List.not_mem_nil _)
    | child _ _ ih => exact ih
  exact hall "1"

/-- C1 (amended): the concrete round trip holds as claimed — flattening
the hierarchical view of `[{id:1}, {id:2, parentId:1}, {id:3, parentId:2}]`
yields identifiers 1, 2, 3 with tree depths 0, 1, 2 and has-children flags
true, true, false, with the bookkeeping fields regenerated — and in
general the identifiers reachable in the hierarchical form are exactly
the identifier keys of the flat form *provided* the flat input has
pairwise-distinct identifier keys, no dangling parent reference (every
row is a root or names some row's key as parent), and well-founded parent
links (a rank function decreases from every non-root to its parent —
rows dropped by the conversion, as in the counterexample, and cyclic
parent chains both break the equality). -/
theorem roundTrip_and_reachable_identifiers :
    ((convertHierarchicalViewToFlatArray
        (convertParentChildFlatArrayToHierarchicalView chainFlat)).map
          (fun r => getFieldJ r "id") = [.num 1, .num 2, .num 3] ∧
      (convertHierarchicalViewToFlatArray
        (convertParentChildFlatArrayToHierarchicalView chainFlat)).map
          (fun r => getFieldJ r "__treeLevel") = [.num 0, .num 1, .num 2] ∧
      (convertHierarchicalViewToFlatArray
        (convertParentChildFlatArrayToHierarchicalView chainFlat)).map
          (fun r => strictEq (getFieldJ r "__hasChildren") (.bool true)) =
        [true, true, false]) ∧
    ∀ (opts : Option ConvOptions) (flatArray : List Row),
      (flatArray.map (idKeyOf (resolveProp (opts.bind (·.identifierPropName)) "id"))).Nodup →
      (∀ r ∈ flatArray,
        isRootRow (resolveProp (opts.bind (·.parentPropName)) "parentId") r = true ∨
        parentKeyOf (resolveProp (opts.bind (·.parentPropName)) "parentId") r ∈
          flatArray.map (idKeyOf (resolveProp (opts.bind (·.identifierPropName)) "id"))) →
      (∃ rank : String → Nat, ∀ r ∈ flatArray,
        isRootRow (resolveProp (opts.bind (·.parentPropName)) "parentId") r = false →
        rank (parentKeyOf (resolveProp (opts.bind (·.parentPropName)) "parentId") r) <
          rank (idKeyOf (resolveProp (opts.bind (·.identifierPropName)) "id") r)) →
      ∀ k, ReachableKey opts flatArray k ↔
        k ∈ flatArray.map (idKeyOf (resolveProp (opts.bind (·.identifierPropName)) "id")) := by
  refine ⟨⟨rfl, rfl, rfl⟩, ?_⟩
  intro opts flatArray hnd hnodangling hranked k
  set idProp := resolveProp (opts.bind (·.identifierPropName)) "id" with hip
  set parentProp := resolveProp (opts.bind (·.parentPropName)) "parentId" with hpp
  obtain ⟨rank, hrank⟩ := hranked
  have hpair : ∀ r ∈ flatArray, (idKeyOf idProp r, r) ∈ hierAll idProp flatArray := by
    intro r hr
    rw [hierAll_eq_map idProp flatArray hnd]
    exact List.mem_map.mpr ⟨r, hr, rfl⟩
  constructor
  · intro h
    induction h with
    | @root k1 hr =>
      rw [hierRoots, ← hpp, ← hip] at hr
      obtain ⟨r, hmem, -⟩ := (collectRoots_mem parentProp _ k1).mp hr
      have hkk : k1 ∈ (hierAll idProp flatArray).map Prod.fst :=
        List.mem_map.mpr ⟨(k1, r), hmem, rfl⟩
      obtain ⟨r', hr', hk'⟩ := (hierAll_mem_keys idProp flatArray k1).mp hkk
      exact List.mem_map.mpr ⟨r', hr', hk'⟩
    | @child p k1 hp hc ih =>
      rw [hierChildKeys, ← hpp, ← hip] at hc
      split at hc
      · obtain ⟨r, hmem, -, -⟩ := (collectChildren_mem parentProp p _ k1).mp hc
        have hkk : k1 ∈ (hierAll idProp flatArray).map Prod.fst :=
          List.mem_map.mpr ⟨(k1, r), hmem, rfl⟩
        obtain ⟨r', hr', hk'⟩ := (hierAll_mem_keys idProp flatArray k1).mp hkk
        exact List.mem_map.mpr ⟨r', hr', hk'⟩
      · exact absurd hc (List.not_mem_nil _)
  · intro hk
    obtain ⟨r, hr, rfl⟩ := List.mem_map.mp hk
    have main : ∀ n, ∀ r ∈ flatArray, rank (idKeyOf idProp r) < n →
        ReachableKey opts flatArray (idKeyOf idProp r) := by
      intro n
      induction n with
      | zero => intro r _ h; exact absurd h (Nat.not_lt_zero _)
      | succ n ih =>
        intro r hrmem hrn
        by_cases hroot : isRootRow parentProp r = true
        · refine ReachableKey.root ?_
          rw [hierRoots, ← hpp, ← hip]
          exact (collectRoots_mem parentProp _ _).mpr ⟨r, hpair r hrmem, hroot⟩
        · have hroot' : isRootRow parentProp r = false := by
            simpa using hroot
          have hpk : parentKeyOf parentProp r ∈ flatArray.map (idKeyOf idProp) := by
            rcases hnodangling r hrmem with h | h
            · exact absurd h hroot
            · exact h
          obtain ⟨rp, hrp, hrpk⟩ := List.mem_map.mp hpk
          have hlt : rank (idKeyOf idProp rp) < n := by
            rw [hrpk]
            exact Nat.lt_of_lt_of_le (hrank r hrmem hroot')
              (Nat.lt_succ_iff.mp hrn)
          have hreach := ih rp hrp hlt
          refine ReachableKey.child (p := idKeyOf idProp rp) hreach ?_
          rw [hierChildKeys, ← hpp, ← hip]
          have hg : idKeyOf idProp rp ∈ (hierAll idProp flatArray).map Prod.fst :=
            (hierAll_mem_keys idProp flatArray _).mpr ⟨rp, hrp, rfl⟩
          rw [if_pos hg]
          exact (collectChildren_mem parentProp _ _ _).mpr ⟨r, hpair r hrmem, hroot', hrpk.symm⟩
    exact main (rank (idKeyOf idProp r) + 1) r hr (Nat.lt_succ_self _)

/-- C1 (witness): the general part applied to the 3-row chain — with the
rank `1 ↦ 0, 2 ↦ 1, _ ↦ 2`, identifier key `3` is reachable iff it is an
identifier of the flat form (and it is). -/
theorem roundTrip_and_reachable_identifiers_witness :
    ReachableKey none chainFlat "3" ↔ "3" ∈ chainFlat.map (idKeyOf "id") :=
  roundTrip_and_reachable_identifiers.2 none chainFlat (by decide)
    (by decide)
    ⟨fun k => if k = "1" then 0 else if k = "2" then 1 else 2, by decide⟩ "3"

/-! ## C3 — tree-items roll-up

The conclusion speaks about the parent chain on the *original* dataset:
`AncestorOrSelf items pp i j` holds when the repeated identifier lookup of
the parent property, starting at index `i`, visits index `j` (so the
descendants-or-self of `j` are exactly the `i` with `AncestorOrSelf i j`).
`colKey items colId i` is the string form of row `i`'s tree-column value —
what the source seeds the roll-up list with (`items[i][treeDataColumn.id]`,
the column values, e.g. the titles of its own doc example — *not* the row
identifiers). -/

theorem anc_trans {items : List Row} {pp : String} {a b c : Nat}
    (h1 : AncestorOrSelf items pp a b) (h2 : AncestorOrSelf items pp b c) :
    AncestorOrSelf items pp a c := by
  induction h1 with
  | refl => exact h2
  | step hstep _ ih => exact .step hstep (ih h2)

theorem modifyAt_length {α : Type} (f : α → α) :
    ∀ (l : List α) (i : Nat), (modifyAt f l i).length = l.length := by
  intro l
  induction l with
  | nil => intro i; rfl
  | cons x rest ih =>
    intro i
    cases i with
    | zero => rfl
    | succ n => simp [modifyAt, ih n]

theorem modifyAt_getD_ne {α : Type} (f : α → α) (d : α) :
    ∀ (l : List α) (i j : Nat), j ≠ i → (modifyAt f l i).getD j d = l.getD j d := by
  intro l
  induction l with
  | nil => intro i j _; rfl
  | cons x rest ih =>
    intro i j hne
    cases i with
    | zero =>
      cases j with
      | zero => exact absurd rfl hne
      | succ m => rfl
    | succ n =>
      cases j with
      | zero => rfl
      | succ m =>
        simp only [modifyAt, List.getD_cons_succ]
        exact ih n m (fun hc => hne (by rw [hc]))

theorem modifyAt_getD_eq {α : Type} (f : α → α) (d : α) :
    ∀ (l : List α) (i : Nat), i < l.length → (modifyAt f l i).getD i d = f (l.getD i d) := by
  intro l
  induction l with
  | nil => intro i h; exact absurd h (by simp)
  | cons x rest ih =>
    intro i h
    cases i with
    | zero => rfl
    | succ n =>
      simp only [modifyAt, List.getD_cons_succ]
      exact ih n (by simpa using h)

theorem lookupField_setField_eq (k : String) (v : JVal) :
    ∀ r : Row, lookupField (setField r k v) k = some v := by
  intro r
  induction r with
  | nil => simp [setField, lookupField]
  | cons x rest ih =>
    obtain ⟨kx, vx⟩ := x
    rw [setField]
    by_cases hk : kx = k
    · rw [if_pos hk, lookupField, if_pos rfl]
    · rw [if_neg hk, lookupField, if_neg hk]
      exact ih

theorem getFieldJ_setField_eq (k : String) (v : JVal) (r : Row) :
    getFieldJ (setField r k v) k = v := by
  rw [getFieldJ, lookupField_setField_eq]
  rfl

theorem findIdxFrom_congr (p q : Row → Bool) :
    ∀ (l₁ l₂ : List Row) (i : Nat), l₁.length = l₂.length →
      (∀ n, p (l₁.getD n []) = q (l₂.getD n [])) →
      findIdxFrom p l₁ i = findIdxFrom q l₂ i := by
  intro l₁
  induction l₁ with
  | nil =>
    intro l₂ i hlen _
    rw [List.length_nil] at hlen
    rw [List.eq_nil_of_length_eq_zero hlen.symm]
    rfl
  | cons x rest ih =>
    intro l₂ i hlen hpt
    match l₂ with
    | [] => exact absurd hlen (by simp)
    | y :: rest₂ =>
      rw [findIdxFrom, findIdxFrom]
      have h0 := hpt 0
      simp only [List.getD_cons_zero] at h0
      rw [h0]
      by_cases hq : q y = true
      · rw [if_pos hq, if_pos hq]
      · rw [if_neg hq, if_neg hq]
        refine ih rest₂ (i + 1) (by simpa using hlen) ?_
        intro n
        have := hpt (n + 1)
        simpa using this

theorem getItemByIdIdx_stable (items state : List Row) (tiProp : String)
    (hid : "id" ≠ tiProp) (hlen : state.length = items.length)
    (hfields : ∀ j k, k ≠ tiProp → lookupField (state.getD j []) k =
      lookupField (items.getD j []) k) :
    ∀ v, getItemByIdIdx state v = getItemByIdIdx items v := by
  intro v
  refine findIdxFrom_congr _ _ state items 0 hlen ?_
  intro n
  have : getFieldJ (state.getD n []) "id" = getFieldJ (items.getD n []) "id" := by
    rw [getFieldJ, getFieldJ, hfields n "id" hid]
  rw [this]

theorem mem_keys_dedupeAux (s : String) :
    ∀ (l : List JVal) (seen : List String), s ∉ seen →
      (s ∈ (dedupeAux l seen).map toKeyString ↔ s ∈ l.map toKeyString) := by
  intro l
  induction l with
  | nil => intro seen _; simp [dedupeAux]
  | cons z rest ih =>
    intro seen hs
    rw [dedupeAux]
    by_cases hz : toKeyString z ∈ seen
    · rw [if_pos hz, ih seen hs]
      simp only [List.map_cons, List.mem_cons]
      constructor
      · exact Or.inr
      · rintro (rfl | h)
        · exact absurd hz hs
        · exact h
    · rw [if_neg hz]
      simp only [List.map_cons, List.mem_cons]
      by_cases hsz : s = toKeyString z
      · subst hsz
        simp
      · have : s ∉ toKeyString z :: seen := by
          intro hc
          rcases List.mem_cons.mp hc with h | h
          · exact hsz h
          · exact hs h
        rw [ih _ this]

theorem mem_keys_dedupe (s : String) (l : List JVal) :
    s ∈ (dedupePrimitiveArray l).map toKeyString ↔ s ∈ l.map toKeyString :=
  mem_keys_dedupeAux s l [] (by simp)

theorem walkUp_step_none (pp ti : String) (f : Nat) (state : List Row) (cur : Nat)
    (h : getItemByIdIdx state (getFieldJ (state.getD cur []) pp) = none) :
    walkUp pp ti (f + 1) state cur = .ok state := by
  rw [walkUp, h]

theorem walkUp_step_some (pp ti : String) (f : Nat) (state : List Row) (cur pj : Nat)
    (pvs carried : List JVal)
    (h1 : getItemByIdIdx state (getFieldJ (state.getD cur []) pp) = some pj)
    (h2 : getFieldJ (state.getD pj []) ti = .arr pvs)
    (h3 : getFieldJ (state.getD cur []) ti = .arr carried) :
    walkUp pp ti (f + 1) state cur =
      walkUp pp ti f
        (modifyAt (fun r => setField r ti (.arr (dedupePrimitiveArray (pvs ++ carried))))
          state pj) pj := by
  rw [walkUp, h1]
  simp only [h2, h3]

theorem tiKeys_iff_of_arr {ti : String} {state : List Row} {j : Nat} {vs : List JVal}
    (h : getFieldJ (state.getD j []) ti = .arr vs) (s : String) :
    tiKeys ti state j s ↔ s ∈ vs.map toKeyString := by
  constructor
  · rintro ⟨vs', hvs', hs⟩
    rw [h] at hvs'
    cases hvs'
    exact hs
  · intro hs
    exact ⟨vs, h, hs⟩

theorem anc_le (items : List Row) (pp : String)
    (hparfirst : ∀ i < items.length, ∀ j,
      getItemByIdIdx items (getFieldJ (items.getD i []) pp) = some j → j < i) :
    ∀ {i j : Nat}, AncestorOrSelf items pp i j → i < items.length →
      j ≤ i ∧ j < items.length := by
  intro i j h
  induction h with
  | refl => intro h2; exact ⟨Nat.le_refl _, h2⟩
  | step hstep _ ih =>
    intro hi
    have hp := hparfirst _ hi _ hstep
    have hrec := ih (Nat.lt_trans hp hi)
    exact ⟨Nat.le_trans hrec.1 (Nat.le_of_lt hp), hrec.2⟩

theorem tiKeys_chain_subset {items : List Row} {pp ti : String} {state : List Row}
    {carried : List JVal} {cur : Nat}
    (hmono : ∀ a b, AncestorOrSelf items pp cur a →
      getItemByIdIdx items (getFieldJ (items.getD a []) pp) = some b →
      ∀ s, tiKeys ti state a s → tiKeys ti state b s ∨ s ∈ carried.map toKeyString) :
    ∀ {x j : Nat}, AncestorOrSelf items pp x j → AncestorOrSelf items pp cur x →
      ∀ s, tiKeys ti state x s → tiKeys ti state j s ∨ s ∈ carried.map toKeyString := by
  intro x j hxj
  induction hxj with
  | refl => intro _ s hs; exact Or.inl hs
  | step hstep _ ih =>
    intro hcx s hs
    rcases hmono _ _ hcx hstep s hs with h | h
    · exact ih (anc_trans hcx (.step hstep (.refl _))) s h
    · exact Or.inr h

/-- Full behaviour of the `while (parent)` climb from index `cur`: under
the parent-first ordering it terminates with enough fuel, touches exactly
the strict ancestors of `cur`, and replaces each touched roll-up key set
by its old keys united with the carried keys (every non-roll-up field of
every row, and every untouched row, is left intact). -/
theorem walkUp_spec (items : List Row) (pp ti : String)
    (hid : "id" ≠ ti) (hppti : pp ≠ ti)
    (hparfirst : ∀ i < items.length, ∀ j,
      getItemByIdIdx items (getFieldJ (items.getD i []) pp) = some j → j < i) :
    ∀ cur : Nat, cur < items.length →
    ∀ (state : List Row) (fuel : Nat), cur < fuel →
      state.length = items.length →
      (∀ j k, k ≠ ti → lookupField (state.getD j []) k = lookupField (items.getD j []) k) →
      ∀ carried : List JVal, getFieldJ (state.getD cur []) ti = .arr carried →
      (∀ j, AncestorOrSelf items pp cur j →
        ∃ vs, getFieldJ (state.getD j []) ti = .arr vs ∧ (vs.map toKeyString).Nodup) →
      (∀ a b, AncestorOrSelf items pp cur a →
        getItemByIdIdx items (getFieldJ (items.getD a []) pp) = some b →
        ∀ s, tiKeys ti state a s → tiKeys ti state b s ∨ s ∈ carried.map toKeyString) →
      ∃ state', walkUp pp ti fuel state cur = .ok state' ∧
        state'.length = items.length ∧
        (∀ j k, k ≠ ti →
          lookupField (state'.getD j []) k = lookupField (items.getD j []) k) ∧
        (∀ j, ¬ (AncestorOrSelf items pp cur j ∧ j ≠ cur) →
          state'.getD j [] = state.getD j []) ∧
        (∀ j, AncestorOrSelf items pp cur j → j ≠ cur →
          ∃ vs, getFieldJ (state'.getD j []) ti = .arr vs ∧
            (vs.map toKeyString).Nodup ∧
            ∀ s, s ∈ vs.map toKeyString ↔
              (tiKeys ti state j s ∨ s ∈ carried.map toKeyString)) := by
  intro cur
  induction cur using Nat.strong_induction_on with
  | _ cur ih =>
    intro hcur state fuel hfuel hlen hfields carried hcarried hancarr hmono
    match fuel, hfuel with
    | f + 1, hfuel =>
    have hstab := getItemByIdIdx_stable items state ti hid hlen hfields
    have hpar_eq : getFieldJ (state.getD cur []) pp = getFieldJ (items.getD cur []) pp := by
      rw [getFieldJ, getFieldJ, hfields cur pp hppti]
    rcases hres : getItemByIdIdx items (getFieldJ (items.getD cur []) pp) with _ | pj
    · have hres_state : getItemByIdIdx state (getFieldJ (state.getD cur []) pp) = none := by
        rw [hstab, hpar_eq, hres]
      refine ⟨state, walkUp_step_none pp ti f state cur hres_state, hlen, hfields,
        fun j _ => rfl, ?_⟩
      intro j hanc hne
      cases hanc with
      | refl => exact absurd rfl hne
      | step hstep _ =>
        rw [hres] at hstep
        exact absurd hstep (by simp)
    · have hres_state : getItemByIdIdx state (getFieldJ (state.getD cur []) pp) = some pj := by
        rw [hstab, hpar_eq, hres]
      have hpj_lt : pj < cur := hparfirst cur hcur pj hres
      have hpj_len : pj < items.length := Nat.lt_trans hpj_lt hcur
      have hanc_cur_pj : AncestorOrSelf items pp cur pj := .step hres (.refl pj)
      obtain ⟨pvs, hpvs, hpvs_nd⟩ := hancarr pj hanc_cur_pj
      have hstep_eq := walkUp_step_some pp ti f state cur pj pvs carried
        hres_state hpvs hcarried
      set merged := dedupePrimitiveArray (pvs ++ carried) with hmerged_def
      set state1 := modifyAt (fun r => setField r ti (.arr merged)) state pj with hstate1_def
      have hpj_state : pj < state.length := by rw [hlen]; exact hpj_len
      have hstate1_pj : state1.getD pj [] = setField (state.getD pj []) ti (.arr merged) := by
        rw [hstate1_def, modifyAt_getD_eq _ _ state pj hpj_state]
      have hstate1_ne : ∀ j, j ≠ pj → state1.getD j [] = state.getD j [] := by
        intro j hj
        rw [hstate1_def, modifyAt_getD_ne _ _ state pj j hj]
      have hlen1 : state1.length = items.length := by
        rw [hstate1_def, modifyAt_length, hlen]
      have hfields1 : ∀ j k, k ≠ ti →
          lookupField (state1.getD j []) k = lookupField (items.getD j []) k := by
        intro j k hk
        by_cases hj : j = pj
        · subst hj
          rw [hstate1_pj, lookupField_setField_ne _ _ _ _ (fun hc => hk hc.symm)]
          exact hfields j k hk
        · rw [hstate1_ne j hj]
          exact hfields j k hk
      have hcarried1 : getFieldJ (state1.getD pj []) ti = .arr merged := by
        rw [hstate1_pj, getFieldJ_setField_eq]
      have hmk : ∀ s, s ∈ merged.map toKeyString ↔
          (s ∈ pvs.map toKeyString ∨ s ∈ carried.map toKeyString) := by
        intro s
        rw [hmerged_def, mem_keys_dedupe, List.map_append, List.mem_append]
      have hanc1 : ∀ j, AncestorOrSelf items pp pj j → AncestorOrSelf items pp cur j :=
        fun j h => anc_trans hanc_cur_pj h
      have hancarr1 : ∀ j, AncestorOrSelf items pp pj j →
          ∃ vs, getFieldJ (state1.getD j []) ti = .arr vs ∧ (vs.map toKeyString).Nodup := by
        intro j hj
        by_cases hjp : j = pj
        · subst hjp
          exact ⟨merged, hcarried1, by rw [hmerged_def]; exact dedupeAux_key_nodup _ []⟩
        · rw [hstate1_ne j hjp]
          exact hancarr j (hanc1 j hj)
      have hmono1 : ∀ a b, AncestorOrSelf items pp pj a →
          getItemByIdIdx items (getFieldJ (items.getD a []) pp) = some b →
          ∀ s, tiKeys ti state1 a s → tiKeys ti state1 b s ∨ s ∈ merged.map toKeyString := by
        intro a b ha hb s hs
        have ha_le := anc_le items pp hparfirst ha hpj_len
        have hb_lt : b < a := hparfirst a ha_le.2 b hb
        have hb_ne : b ≠ pj := by omega
        by_cases hap : a = pj
        · subst hap
          right
          exact (tiKeys_iff_of_arr hcarried1 s).mp hs
        · rw [show tiKeys ti state1 a s ↔ tiKeys ti state a s from by
            rw [tiKeys, tiKeys, hstate1_ne a hap]] at hs
          rcases hmono a b (hanc1 a ha) hb s hs with h | h
          · left
            rw [tiKeys, hstate1_ne b hb_ne]
            exact h
          · right
            exact (hmk s).mpr (Or.inr h)
      obtain ⟨state2, hrun2, hlen2, hfields2, huntouched2, hupdated2⟩ :=
        ih pj hpj_lt hpj_len state1 f (by omega) hlen1 hfields1 merged hcarried1
          hancarr1 hmono1
      refine ⟨state2, by rw [hstep_eq]; exact hrun2, hlen2, hfields2, ?_, ?_⟩
      · intro j hj
        have hj_ne_pj : j ≠ pj := by
          intro hc
          subst hc
          exact hj ⟨hanc_cur_pj, by omega⟩
        have hj1 : ¬ (AncestorOrSelf items pp pj j ∧ j ≠ pj) := by
          rintro ⟨hanc, hne⟩
          have hle := anc_le items pp hparfirst hanc hpj_len
          exact hj ⟨hanc1 j hanc, by omega⟩
        rw [huntouched2 j hj1, hstate1_ne j hj_ne_pj]
      · intro j hanc hne
        by_cases hjp : j = pj
        · subst hjp
          have hst2 : state2.getD j [] = state1.getD j [] :=
            huntouched2 j (by rintro ⟨-, hc⟩; exact hc rfl)
          refine ⟨merged, by rw [hst2]; exact hcarried1,
            by rw [hmerged_def]; exact dedupeAux_key_nodup _ [], ?_⟩
          intro s
          rw [hmk s, ← tiKeys_iff_of_arr hpvs s]
        · have hanc_pj_j : AncestorOrSelf items pp pj j := by
            cases hanc with
            | refl => exact absurd rfl hne
            | step hstep hrest =>
              rw [hres] at hstep
              cases hstep
              exact hrest
          obtain ⟨vs, hvs, hvs_nd, hvs_mem⟩ := hupdated2 j hanc_pj_j hjp
          refine ⟨vs, hvs, hvs_nd, ?_⟩
          intro s
          rw [hvs_mem s]
          rw [show tiKeys ti state1 j s ↔ tiKeys ti state j s from by
            rw [tiKeys, tiKeys, hstate1_ne j hjp]]
          rw [hmk s, ← tiKeys_iff_of_arr hpvs s]
          constructor
          · rintro (h | (h | h))
            · exact Or.inl h
            · rcases tiKeys_chain_subset hmono hanc_pj_j hanc_cur_pj s h with h2 | h2
              · exact Or.inl h2
              · exact Or.inr h2
            · exact Or.inr h
          · rintro (h | h)
            · exact Or.inl h
            · exact Or.inr (Or.inr h)

theorem eq_null_of_strictEq_null {v : JVal} (h : strictEq v .null = true) : v = .null := by
  cases v
  case null => rfl
  all_goals simp [strictEq] at h

theorem rollUpItem_spec (items : List Row) (colId pp ti : String)
    (hid : "id" ≠ ti) (hppti : pp ≠ ti) (hcolti : colId ≠ ti)
    (hparfirst : ∀ i < items.length, ∀ j,
      getItemByIdIdx items (getFieldJ (items.getD i []) pp) = some j → j < i)
    (hnull : getItemByIdIdx items .null = none)
    (m : Nat) (hm : m < items.length) (state : List Row)
    (hinv : RollInv items colId pp ti m state) :
    ∃ state', rollUpItem colId pp ti state m = .ok state' ∧
      RollInv items colId pp ti (m + 1) state' := by
  obtain ⟨hlen, hfields, hunseed, hseed⟩ := hinv
  set seeded := modifyAt (fun r => setField r ti (.arr [getFieldJ r colId])) state m
    with hseeded_def
  have hrun : rollUpItem colId pp ti state m =
      if strictEq (getFieldJ (seeded.getD m []) pp) .null then .ok seeded
      else walkUp pp ti (seeded.length + 1) seeded m := rfl
  have hm_state : m < state.length := by rw [hlen]; exact hm
  set cv := getFieldJ (state.getD m []) colId with hcv_def
  have hcv_items : cv = getFieldJ (items.getD m []) colId := by
    rw [hcv_def, getFieldJ, getFieldJ, hfields m colId hcolti]
  have hseeded_m : seeded.getD m [] = setField (state.getD m []) ti (.arr [cv]) := by
    rw [hseeded_def, modifyAt_getD_eq _ _ state m hm_state]
  have hseeded_ne : ∀ j, j ≠ m → seeded.getD j [] = state.getD j [] := by
    intro j hj
    rw [hseeded_def, modifyAt_getD_ne _ _ state m j hj]
  have hlen_s : seeded.length = items.length := by
    rw [hseeded_def, modifyAt_length, hlen]
  have hfields_s : ∀ j k, k ≠ ti →
      lookupField (seeded.getD j []) k = lookupField (items.getD j []) k := by
    intro j k hk
    by_cases hj : j = m
    · subst hj
      rw [hseeded_m, lookupField_setField_ne _ _ _ _ (fun hc => hk hc.symm)]
      exact hfields j k hk
    · rw [hseeded_ne j hj]
      exact hfields j k hk
  have hseed_ti_m : getFieldJ (seeded.getD m []) ti = .arr [cv] := by
    rw [hseeded_m, getFieldJ_setField_eq]
  have hpar_seed : getFieldJ (seeded.getD m []) pp = getFieldJ (items.getD m []) pp := by
    rw [getFieldJ, getFieldJ, hfields_s m pp hppti]
  have hcolkey : toKeyString cv = colKey items colId m := by
    rw [hcv_items, colKey]
  have hseed_char_m : ∀ s, s ∈ ([cv].map toKeyString) ↔
      ∃ i, i < m + 1 ∧ AncestorOrSelf items pp i m ∧ colKey items colId i = s := by
    intro s
    simp only [List.map_cons, List.map_nil, List.mem_singleton]
    constructor
    · intro hs
      exact ⟨m, Nat.lt_succ_self m, .refl m, by rw [← hcolkey, hs]⟩
    · rintro ⟨i, hi, hanc, hck⟩
      have hle := anc_le items pp hparfirst hanc (by omega)
      have : i = m := by omega
      subst this
      rw [← hck, hcolkey]
  have hunseed_s : ∀ j, m + 1 ≤ j → lookupField (seeded.getD j []) ti = none := by
    intro j hj
    rw [hseeded_ne j (by omega)]
    exact hunseed j (by omega)
  by_cases hguard : strictEq (getFieldJ (seeded.getD m []) pp) .null = true
  · have hpnull : getFieldJ (items.getD m []) pp = .null := by
      rw [← hpar_seed]
      exact eq_null_of_strictEq_null hguard
    have hnostep : ∀ j, AncestorOrSelf items pp m j → j = m := by
      intro j hanc
      cases hanc with
      | refl => rfl
      | step hstep _ =>
        rw [hpnull, hnull] at hstep
        exact absurd hstep (by simp)
    refine ⟨seeded, by rw [hrun, if_pos hguard], hlen_s, hfields_s, hunseed_s, ?_⟩
    intro j hj
    by_cases hjm : j = m
    · subst hjm
      exact ⟨[cv], hseed_ti_m, by simp, hseed_char_m⟩
    · have hjm' : j < m := by omega
      obtain ⟨vs, hvs, hvs_nd, hvs_mem⟩ := hseed j hjm'
      refine ⟨vs, by rw [getFieldJ, hseeded_ne j hjm, ← getFieldJ]; exact hvs, hvs_nd, ?_⟩
      intro s
      rw [hvs_mem s]
      constructor
      · rintro ⟨i, hi, hanc, hck⟩
        exact ⟨i, by omega, hanc, hck⟩
      · rintro ⟨i, hi, hanc, hck⟩
        by_cases him : i = m
        · subst him
          exact absurd (hnostep j hanc) hjm
        · exact ⟨i, by omega, hanc, hck⟩
  · have hguard' : strictEq (getFieldJ (seeded.getD m []) pp) .null = false := by
      simpa using hguard
    have hancarr : ∀ j, AncestorOrSelf items pp m j →
        ∃ vs, getFieldJ (seeded.getD j []) ti = .arr vs ∧ (vs.map toKeyString).Nodup := by
      intro j hanc
      by_cases hjm : j = m
      · subst hjm
        exact ⟨[cv], hseed_ti_m, by simp⟩
      · have hle := anc_le items pp hparfirst hanc hm
        have hjm' : j < m := by omega
        obtain ⟨vs, hvs, hvs_nd, -⟩ := hseed j hjm'
        exact ⟨vs, by rw [getFieldJ, hseeded_ne j hjm, ← getFieldJ]; exact hvs, hvs_nd⟩
    have hmono : ∀ a b, AncestorOrSelf items pp m a →
        getItemByIdIdx items (getFieldJ (items.getD a []) pp) = some b →
        ∀ s, tiKeys ti seeded a s → tiKeys ti seeded b s ∨ s ∈ [cv].map toKeyString := by
      intro a b hanc hb s hs
      have hle := anc_le items pp hparfirst hanc hm
      have hb_lt : b < a := hparfirst a hle.2 b hb
      by_cases ham : a = m
      · subst ham
        right
        exact (tiKeys_iff_of_arr hseed_ti_m s).mp hs
      · have ham' : a < m := by omega
        obtain ⟨vsa, hvsa, -, hvsa_mem⟩ := hseed a ham'
        have hvsa' : getFieldJ (seeded.getD a []) ti = .arr vsa := by
          rw [getFieldJ, hseeded_ne a ham, ← getFieldJ]; exact hvsa
        obtain ⟨i, hi, hanc_ia, hck⟩ :=
          (hvsa_mem s).mp ((tiKeys_iff_of_arr hvsa' s).mp hs)
        have hanc_ib : AncestorOrSelf items pp i b := anc_trans hanc_ia (.step hb (.refl b))
        have hbm : b ≠ m := by omega
        obtain ⟨vsb, hvsb, -, hvsb_mem⟩ := hseed b (by omega)
        have hvsb' : getFieldJ (seeded.getD b []) ti = .arr vsb := by
          rw [getFieldJ, hseeded_ne b hbm, ← getFieldJ]; exact hvsb
        left
        exact (tiKeys_iff_of_arr hvsb' s).mpr ((hvsb_mem s).mpr ⟨i, hi, hanc_ib, hck⟩)
    obtain ⟨state2, hrun2, hlen2, hfields2, huntouched2, hupdated2⟩ :=
      walkUp_spec items pp ti hid hppti hparfirst m hm seeded (seeded.length + 1)
        (by rw [hlen_s]; omega) hlen_s hfields_s [cv] hseed_ti_m hancarr hmono
    refine ⟨state2, by rw [hrun, if_neg (by simpa using hguard'), hrun2], hlen2, hfields2,
      ?_, ?_⟩
    · intro j hj
      have hnotanc : ¬ (AncestorOrSelf items pp m j ∧ j ≠ m) := by
        rintro ⟨hanc, -⟩
        have hle := anc_le items pp hparfirst hanc hm
        omega
      rw [huntouched2 j hnotanc]
      exact hunseed_s j hj
    · intro j hj
      by_cases hjm : j = m
      · subst hjm
        have hst : state2.getD j [] = seeded.getD j [] :=
          huntouched2 j (by rintro ⟨-, hc⟩; exact hc rfl)
        refine ⟨[cv], by rw [getFieldJ, hst, ← getFieldJ]; exact hseed_ti_m, by simp,
          hseed_char_m⟩
      · have hjm' : j < m := by omega
        obtain ⟨vs, hvs, hvs_nd, hvs_mem⟩ := hseed j hjm'
        have hvs_seeded : getFieldJ (seeded.getD j []) ti = .arr vs := by
          rw [getFieldJ, hseeded_ne j hjm, ← getFieldJ]; exact hvs
        by_cases hanc : AncestorOrSelf items pp m j
        · obtain ⟨vs2, hvs2, hvs2_nd, hvs2_mem⟩ := hupdated2 j hanc hjm
          refine ⟨vs2, hvs2, hvs2_nd, ?_⟩
          intro s
          rw [hvs2_mem s, tiKeys_iff_of_arr hvs_seeded s, hvs_mem s]
          simp only [List.map_cons, List.map_nil, List.mem_singleton]
          constructor
          · rintro (⟨i, hi, hanc_ij, hck⟩ | hs)
            · exact ⟨i, by omega, hanc_ij, hck⟩
            · exact ⟨m, by omega, hanc, by rw [← hcolkey, hs]⟩
          · rintro ⟨i, hi, hanc_ij, hck⟩
            by_cases him : i = m
            · subst him
              right
              rw [← hck, hcolkey]
            · exact Or.inl ⟨i, by omega, hanc_ij, hck⟩
        · have hst : state2.getD j [] = seeded.getD j [] :=
            huntouched2 j (by rintro ⟨hc, -⟩; exact hanc hc)
          refine ⟨vs, by rw [getFieldJ, hst, ← getFieldJ]; exact hvs_seeded, hvs_nd, ?_⟩
          intro s
          rw [hvs_mem s]
          constructor
          · rintro ⟨i, hi, hanc_ij, hck⟩
            exact ⟨i, by omega, hanc_ij, hck⟩
          · rintro ⟨i, hi, hanc_ij, hck⟩
            by_cases him : i = m
            · subst him
              exact absurd hanc_ij hanc
            · exact ⟨i, by omega, hanc_ij, hck⟩

theorem rollUpLoop_spec (items : List Row) (colId pp ti : String)
    (hid : "id" ≠ ti) (hppti : pp ≠ ti) (hcolti : colId ≠ ti)
    (hparfirst : ∀ i < items.length, ∀ j,
      getItemByIdIdx items (getFieldJ (items.getD i []) pp) = some j → j < i)
    (hnull : getItemByIdIdx items .null = none) :
    ∀ (c m : Nat) (state : List Row), m + c = items.length →
      RollInv items colId pp ti m state →
      ∃ final, rollUpLoop colId pp ti (List.range' m c) state = .ok final ∧
        RollInv items colId pp ti items.length final := by
  intro c
  induction c with
  | zero =>
    intro m state hmc hinv
    refine ⟨state, rfl, ?_⟩
    have : m = items.length := by omega
    rwa [this] at hinv
  | succ c ihc =>
    intro m state hmc hinv
    have hm : m < items.length := by omega
    obtain ⟨state1, hrun1, hinv1⟩ :=
      rollUpItem_spec items colId pp ti hid hppti hcolti hparfirst hnull m hm state hinv
    obtain ⟨final, hrunf, hinvf⟩ := ihc (m + 1) state1 (by omega) hinv1
    refine ⟨final, ?_, hinvf⟩
    rw [show List.range' m (c + 1) = m :: List.range' (m + 1) c from rfl]
    rw [rollUpLoop, hrun1]
    exact hrunf

/-- C3 (counterexample): with the tree column `title`,
`modifyDatasetToAddTreeItemsMapping` seeds the roll-up list with
`items[i][treeDataColumn.id]` — the row's *tree-column value* `"A"` — and
not with the row's identifier 1 (their string forms differ), refuting
"each row's roll-up list is seeded with its own identifier". -/
theorem modifyDataset_seeds_column_values :
    modifyDatasetToAddTreeItemsMapping [titleRow] titleColumn =
      .ok [[("id", .num 1), ("title", .str "A"), ("__parentId", .null),
            ("__treeItems", .arr [.str "A"])]] ∧
    getFieldJ titleRow "id" = .num 1 ∧
    toKeyString (.str "A") ≠ toKeyString (.num 1) :=
  ⟨rfl, rfl, by decide⟩

/-- C3 (amended): the roll-up list of each row is seeded with the row's
*tree-column value* (`items[i][treeDataColumn.id]`) and merged upward with
deduplication, so that after processing every row's roll-up key set is
exactly the tree-column values of all of its descendants plus itself — the
rows whose parent chain passes through it.  For the 3-row chain with the
tree column on the identifier field the roll-up arrays are `[1,2,3]`,
`[2,3]`, `[3]` as claimed.  The general statement holds for items whose
roll-up property is absent on input and distinct from the id/parent/tree
column names, whose parent references resolve only to earlier rows
(parent-first order, as the flattened output guarantees; a child-first
dataset makes the source throw on `undefined.concat`), and none of whose
identifiers reads back as the string `null`. -/
theorem modifyDataset_rollup_correctness :
    (modifyDatasetToAddTreeItemsMapping chainItems idColumn =
      .ok [[("id", .num 1), ("__parentId", .null),
            ("__treeItems", .arr [.num 1, .num 2, .num 3])],
           [("id", .num 2), ("__parentId", .num 1),
            ("__treeItems", .arr [.num 2, .num 3])],
           [("id", .num 3), ("__parentId", .num 2),
            ("__treeItems", .arr [.num 3])]]) ∧
    ∀ (items : List Row) (treeDataColumn : Column),
      "id" ≠ resolveProp (treeDataColumn.treeData.bind (·.itemMapPropName)) "__treeItems" →
      resolveProp (treeDataColumn.treeData.bind (·.parentPropName)) "__parentId" ≠
        resolveProp (treeDataColumn.treeData.bind (·.itemMapPropName)) "__treeItems" →
      treeDataColumn.id ≠
        resolveProp (treeDataColumn.treeData.bind (·.itemMapPropName)) "__treeItems" →
      (∀ r ∈ items, lookupField r
        (resolveProp (treeDataColumn.treeData.bind (·.itemMapPropName)) "__treeItems") =
          none) →
      (∀ i < items.length, ∀ j, getItemByIdIdx items (getFieldJ (items.getD i [])
        (resolveProp (treeDataColumn.treeData.bind (·.parentPropName)) "__parentId")) =
          some j → j < i) →
      getItemByIdIdx items .null = none →
      ∃ final, modifyDatasetToAddTreeItemsMapping items treeDataColumn = .ok final ∧
        final.length = items.length ∧
        (∀ j k,
          k ≠ resolveProp (treeDataColumn.treeData.bind (·.itemMapPropName)) "__treeItems" →
          lookupField (final.getD j []) k = lookupField (items.getD j []) k) ∧
        ∀ j, j < items.length → ∃ vs,
          getFieldJ (final.getD j [])
            (resolveProp (treeDataColumn.treeData.bind (·.itemMapPropName)) "__treeItems") =
              .arr vs ∧
          (vs.map toKeyString).Nodup ∧
          ∀ s, s ∈ vs.map toKeyString ↔
            ∃ i, i < items.length ∧
              AncestorOrSelf items
                (resolveProp (treeDataColumn.treeData.bind (·.parentPropName)) "__parentId")
                i j ∧
              colKey items treeDataColumn.id i = s := by
  refine ⟨rfl, ?_⟩
  intro items col h1 h2 h3 habsent hpf hnull
  set ti := resolveProp (col.treeData.bind (·.itemMapPropName)) "__treeItems" with hti
  set pp := resolveProp (col.treeData.bind (·.parentPropName)) "__parentId" with hpp
  have hinv0 : RollInv items col.id pp ti 0 items := by
    refine ⟨rfl, fun j k _ => rfl, ?_, fun j hj => absurd hj (Nat.not_lt_zero _)⟩
    intro j _
    by_cases hj : j < items.length
    · refine habsent _ ?_
      rw [List.getD_eq_getElem _ _ hj]
      exact List.getElem_mem hj
    · rw [List.getD_eq_default _ _ (by omega)]
      rfl
  obtain ⟨final, hrun, hinv⟩ :=
    rollUpLoop_spec items col.id pp ti h1 h2 h3 hpf hnull items.length 0 items
      (by omega) hinv0
  obtain ⟨hlenf, hfieldsf, -, hseedf⟩ := hinv
  refine ⟨final, ?_, hlenf, hfieldsf, ?_⟩
  · have heq : modifyDatasetToAddTreeItemsMapping items col =
        rollUpLoop col.id pp ti (List.range items.length) items := rfl
    rw [heq, List.range_eq_range']
    exact hrun
  · intro j hj
    obtain ⟨vs, hvs, hnd, hmem⟩ := hseedf j hj
    exact ⟨vs, hvs, hnd, hmem⟩

/-- C3 (witness): the general roll-up theorem applied to the 3-row chain
with the tree column on the identifier field. -/
theorem modifyDataset_rollup_correctness_witness :
    ∃ final, modifyDatasetToAddTreeItemsMapping chainItems idColumn = .ok final ∧
      final.length = chainItems.length ∧
      (∀ j k, k ≠ "__treeItems" →
        lookupField (final.getD j []) k = lookupField (chainItems.getD j []) k) ∧
      ∀ j, j < chainItems.length → ∃ vs,
        getFieldJ (final.getD j []) "__treeItems" = .arr vs ∧
        (vs.map toKeyString).Nodup ∧
        ∀ s, s ∈ vs.map toKeyString ↔
          ∃ i, i < chainItems.length ∧
            AncestorOrSelf chainItems "__parentId" i j ∧
            colKey chainItems "id" i = s :=
  modifyDataset_rollup_correctness.2 chainItems idColumn (by decide) (by decide) (by decide)
    (by
      intro r hr
      rcases List.mem_cons.mp hr with rfl | hr
      · rfl
      rcases List.mem_cons.mp hr with rfl | hr
      · rfl
      rcases List.mem_cons.mp hr with rfl | hr
      · rfl
      · exact absurd hr (List.not_mem_nil _))
    (by
      intro i hi j hres
      have hi3 : i < 3 := hi
      interval_cases i
      · have h0 : (none : Option Nat) = some j := hres
        exact absurd h0 (by simp)
      · have h1 : (some 0 : Option Nat) = some j := hres
        injection h1 with h
        omega
      · have h2 : (some 1 : Option Nat) = some j := hres
        injection h2 with h
        omega)
    rfl

end Slick
